import Mathlib

/-!
# An LRU cache with per-entry deadlines (package `cache`)

Shallow embedding of `cache/list.go` and `cache/lru.go`.

* A `*listNode` is an index into the store `list.mem` of all nodes allocated so far
  (`none` is the nil pointer).  Allocation appends to the store, nothing is ever freed.
* Dereferencing nil makes the Go program panic; every operation that dereferences
  returns an `Option`, `none` standing for the panic (and, for the only loop, for
  running out of fuel).
* `time.Now().UnixNano()` is an input: the operations that read the clock take the
  reading `now` as an argument.
* The mutexes and the calls of `fmt.Println` are left out: the model is sequential.
-/

namespace Cache

variable {V : Type}

/-! ## list.go -/

/-- Payload of a node (`nodeData`).  A Go `interface{}` is an `Option V`, nil being `none`. -/
structure nodeData (V : Type) where
  key : String
  data : Option V
deriving DecidableEq

/-- A node of the doubly linked list (`listNode`). -/
structure listNode (V : Type) where
  deadline : Int
  data : nodeData V
  pre : Option Nat
  next : Option Nat
deriving DecidableEq

/-- The doubly linked list with two sentinels (`list`), together with the store `mem`
of the nodes its functions have allocated.  The source calls the tail sentinel `end`. -/
structure list (V : Type) where
  cap : Int
  len : Int
  head : Nat
  end_ : Nat
  mem : List (listNode V)
deriving DecidableEq

/-- Assignment `p.pre = v` in the store; `none` when `p` is not allocated. -/
def setPre (m : List (listNode V)) (p : Nat) (v : Option Nat) : Option (List (listNode V)) :=
  match m[p]? with
  | none => none
  | some n => some (m.set p { n with pre := v })

/-- Assignment `p.next = v` in the store; `none` when `p` is not allocated. -/
def setNext (m : List (listNode V)) (p : Nat) (v : Option Nat) : Option (List (listNode V)) :=
  match m[p]? with
  | none => none
  | some n => some (m.set p { n with next := v })

/-- The function `newListNode`: the deadline is left at its zero value, both links are nil. -/
def newListNode (key : String) (data : Option V) : listNode V :=
  { deadline := 0, data := { key := key, data := data }, pre := none, next := none }

/-- The function `newList`: the two sentinels are allocated at 0 and 1 and linked to each other. -/
def newList (cap : Int) : list V :=
  { cap := cap, len := 0, head := 0, end_ := 1,
    mem := [{ (newListNode "" none : listNode V) with next := some 1 },
            { (newListNode "" none : listNode V) with pre := some 0 }] }

/-- The method `insertList`: link `node` right after the head sentinel. -/
def insertList (l : list V) (node : Nat) : Option (list V) := do
  let h ← l.mem[l.head]?
  let m1 ← setNext l.mem node h.next
  let h1 ← m1[l.head]?
  let first ← h1.next
  let m2 ← setPre m1 first (some node)
  let m3 ← setNext m2 l.head (some node)
  let m4 ← setPre m3 node (some l.head)
  pure { l with mem := m4, len := l.len + 1 }

/-- The method `takeNode`: unlink `node` from its neighbours. -/
def takeNode (l : list V) (node : Nat) : Option (list V) := do
  let n ← l.mem[node]?
  let p ← n.pre
  let m1 ← setNext l.mem p n.next
  let n1 ← m1[node]?
  let q ← n1.next
  let m2 ← setPre m1 q n1.pre
  pure { l with mem := m2, len := l.len - 1 }

/-- The method `addNode`: allocate a node and link it at the front; returns its address. -/
def addNode (l : list V) (key : String) (data : Option V) : Option (list V × Nat) :=
  let newNode := l.mem.length
  (insertList { l with mem := l.mem ++ [newListNode key data] } newNode).map
    (fun l1 => (l1, newNode))

/-- The method `upToHead`. -/
def upToHead (l : list V) (node : Nat) : Option (list V) := do
  let l1 ← takeNode l node
  insertList l1 node

/-- The field `p.next` read from the store (`none` also when `p` is not allocated). -/
def nextOf (m : List (listNode V)) (p : Nat) : Option Nat := (m[p]?).bind (fun n => n.next)

/-- The field `p.pre` read from the store (`none` also when `p` is not allocated). -/
def preOf (m : List (listNode V)) (p : Nat) : Option Nat := (m[p]?).bind (fun n => n.pre)

/-- The fields of `p` that are not links: its deadline and its payload. -/
def infoOf (m : List (listNode V)) (p : Nat) : Option (Int × nodeData V) :=
  (m[p]?).map (fun n => (n.deadline, n.data))

/-- Forward walk along `next`, from the pointer `p` up to (not including) `stop`. -/
def walk (m : List (listNode V)) (stop : Nat) : Nat → Option Nat → List Nat
  | 0, _ => []
  | _ + 1, none => []
  | fuel + 1, some p =>
    if p = stop then [] else p :: walk m stop fuel (nextOf m p)

/-- The nodes reachable from the head sentinel, front first, the sentinels left out. -/
def list.nodes (l : list V) : List Nat :=
  walk l.mem l.end_ l.mem.length (nextOf l.mem l.head)

/-- The keys carried by the linked nodes, front first. -/
def list.keys (l : list V) : List String :=
  l.nodes.filterMap (fun p => (l.mem[p]?).map (fun n => n.data.key))

/-! ## The index `map[string]*listNode` -/

/-- Lookup `dic[key]`. -/
def mapGet : List (String × Nat) → String → Option Nat
  | [], _ => none
  | (k, n) :: t, key => if k = key then some n else mapGet t key

/-- The builtin `delete(dic, key)`. -/
def mapDelete (d : List (String × Nat)) (key : String) : List (String × Nat) :=
  d.filter (fun e => decide (e.1 ≠ key))

/-- Assignment `dic[key] = node`. -/
def mapSet (d : List (String × Nat)) (key : String) (node : Nat) : List (String × Nat) :=
  (key, node) :: mapDelete d key

/-! ## lru.go -/

/-- The cache (`LRUCache`); durations and clock readings are in nanoseconds. -/
structure LRUCache (V : Type) where
  cap : Int
  duration : Int
  li : list V
  dic : List (String × Nat)
deriving DecidableEq

/-- The function `initLRUCache`.  It starts the sweeper with `time.NewTicker(duration / 2)`,
which panics for a non-positive interval. -/
def initLRUCache (_typ : String) (cap : Int) (duration : Int) : Option (LRUCache V) :=
  if Int.tdiv duration 2 ≤ 0 then none
  else some { cap := cap, duration := duration, li := newList cap, dic := [] }

def LRUCache.Len (c : LRUCache V) : Int := c.li.len

def LRUCache.Cap (c : LRUCache V) : Int := c.cap

def LRUCache.Duration (c : LRUCache V) : Int := c.duration

/-- The function `isTimeout`, the clock reading being `now`. -/
def isTimeout (now : Int) (deadline : Int) : Bool :=
  if now < deadline then false else true

/-- The value an `int64` holds after an arithmetic result `x`: two's complement wrap-around. -/
def wrap64 (x : Int) : Int := (x + 9223372036854775808) % 18446744073709551616 - 9223372036854775808

/-- The method `getEnding`; `n1` and `n2` are its two readings of the clock, in this order.
Go's `/` and `%` truncate and `int64` arithmetic wraps around; `Add(duration).UnixNano()`
is `n2 + duration` as long as that fits an `int64` (wrap-around stands for the rest).
No method calls `getEnding`. -/
def LRUCache.getEnding (c : LRUCache V) (n1 n2 : Int) : Int :=
  let random := Int.tmod n1 100
  let duration := wrap64 (c.duration + wrap64 (Int.tdiv c.duration 500 * random))
  wrap64 (n2 + duration)

/-- The method `del`: unlink the node, then delete its key from the index. -/
def LRUCache.del (c : LRUCache V) (node : Nat) : Option (LRUCache V) := do
  let l1 ← takeNode c.li node
  let n ← l1.mem[node]?
  pure { c with li := l1, dic := mapDelete c.dic n.data.key }

/-- The method `Get`. -/
def LRUCache.Get (c : LRUCache V) (now : Int) (key : String) :
    Option ((Option V × Bool) × LRUCache V) :=
  match mapGet c.dic key with
  | none => some ((none, false), c)
  | some node => do
    let n ← c.li.mem[node]?
    if isTimeout now n.deadline then
      let c1 ← c.del node
      pure ((none, false), c1)
    else
      let l1 ← upToHead c.li node
      let n1 ← l1.mem[node]?
      pure ((n1.data.data, true), { c with li := l1 })

/-- The method `limitLen`. -/
def LRUCache.limitLen (c : LRUCache V) : Option (LRUCache V) :=
  if c.Len < c.Cap then some c
  else do
    let e ← c.li.mem[c.li.end_]?
    let lastNode ← e.pre
    c.del lastNode

/-- The method `Put`. -/
def LRUCache.Put (c : LRUCache V) (key : String) (data : Option V) : Option (LRUCache V) := do
  let r ← addNode c.li key data
  LRUCache.limitLen { c with li := r.1, dic := mapSet c.dic key r.2 }

/-- The method `Del`. -/
def LRUCache.Del (c : LRUCache V) (key : String) : Option (LRUCache V) :=
  match mapGet c.dic key with
  | none => some c
  | some node => c.del node

/-- The loop of `cleanTimeoutNode`, `node` being the loop variable and `cleanSum` the
counter; the clock is read as `now` at every iteration.  `none` also when the fuel runs out. -/
def cleanLoop : Nat → LRUCache V → Int → Option Nat → Int → Option (LRUCache V × Int)
  | 0, _, _, _, _ => none
  | _ + 1, _, _, none, _ => none
  | fuel + 1, c, now, some n, cleanSum =>
    if n = c.li.head then some (c, cleanSum)
    else
      match c.li.mem[n]? with
      | none => none
      | some nd =>
        if isTimeout now nd.deadline then
          match c.del n with
          | none => none
          | some c1 =>
            match c1.li.mem[n]? with
            | none => none
            | some nd1 => cleanLoop fuel c1 now nd1.pre (cleanSum + 1)
        else some (c, cleanSum)

/-- The method `cleanTimeoutNode`; the fuel is the number of allocated nodes. -/
def LRUCache.cleanTimeoutNode (c : LRUCache V) (now : Int) : Option (LRUCache V × Int) :=
  match c.li.mem[c.li.end_]? with
  | none => none
  | some e => cleanLoop (c.li.mem.length + 1) c now e.pre 0

/-- The method `runClean`, one tick of the sweeper. -/
def LRUCache.runClean (c : LRUCache V) (now : Int) : Option (LRUCache V) :=
  if c.Len < Int.tdiv c.Cap 2 then some c
  else (c.cleanTimeoutNode now).map (fun r => r.1)

/-- The function returned by `RegistGetFunc getNoCache`.  The external function is pure;
`calls` records the keys it has been called with, latest first. -/
def LRUCache.RegistGetFunc (getNoCache : String → Option V) (c : LRUCache V)
    (calls : List String) (now : Int) (key : String) :
    Option (Option V × LRUCache V × List String) := do
  let r ← c.Get now key
  if r.1.2 then pure (r.1.1, r.2, calls)
  else
    let data := getNoCache key
    let c1 ← r.2.Put key data
    pure (data, c1, key :: calls)

/-- The function returned by `RegistPutFunc putNoCache`.  The external function acts on a
state `W` of its own; it is handed the cache as it is at the time of the call (a Go closure
may read it). -/
def LRUCache.RegistPutFunc {W : Type} (putNoCache : LRUCache V → String → Option V → W → W)
    (c : LRUCache V) (w : W) (key : String) (value : Option V) : Option (LRUCache V × W) :=
  let w1 := putNoCache c key value w
  (c.Del key).map (fun c1 => (c1, w1))

/-- The function returned by `RegistDelFunc delNoCache`, the external function as in
`RegistPutFunc`. -/
def LRUCache.RegistDelFunc {W : Type} (delNoCache : LRUCache V → String → W → W)
    (c : LRUCache V) (w : W) (key : String) : Option (LRUCache V × W) :=
  let w1 := delNoCache c key w
  (c.Del key).map (fun c1 => (c1, w1))

/-! ## Runs -/

/-- One call on the cache: a client call, or a tick of the sweeper. -/
inductive Op (V : Type) where
  | put (key : String) (data : Option V)
  | get (now : Int) (key : String)
  | del (key : String)
  | sweep (now : Int)

/-- The state after one call. -/
def step (c : LRUCache V) : Op V → Option (LRUCache V)
  | .put key data => c.Put key data
  | .get now key => (c.Get now key).map (fun r => r.2)
  | .del key => c.Del key
  | .sweep now => c.runClean now

/-- The state after a sequence of calls. -/
def run (c : LRUCache V) : List (Op V) → Option (LRUCache V)
  | [] => some c
  | o :: os => (step c o).bind (fun c1 => run c1 os)

/-- The state after a sequence of `Put` calls. -/
def runPuts (c : LRUCache V) : List (String × Option V) → Option (LRUCache V)
  | [] => some c
  | kv :: kvs => (c.Put kv.1 kv.2).bind (fun c1 => runPuts c1 kvs)

/-- The states a cache can be in: those reached from a fresh cache by a sequence of calls. -/
def Reachable (c : LRUCache V) : Prop :=
  ∃ (cap duration : Int) (c0 : LRUCache V) (ops : List (Op V)),
    initLRUCache "lru" cap duration = some c0 ∧ run c0 ops = some c

/-! ## Guarded calls

The same operations, except that they fail as soon as `takeNode` or `upToHead` would be
applied to a node that is not linked between the sentinels. -/

/-- Forward walk as in `walk`, telling whether it arrives at `stop`. -/
def reachesEnd (m : List (listNode V)) (stop : Nat) : Nat → Option Nat → Bool
  | 0, _ => false
  | _ + 1, none => false
  | fuel + 1, some p => if p = stop then true else reachesEnd m stop fuel (nextOf m p)

/-- The node is reachable from the head sentinel and is not a sentinel. -/
def linkedNode (l : list V) (node : Nat) : Bool :=
  decide (node ∈ l.nodes) && (decide (node ≠ l.head) && decide (node ≠ l.end_))

/-- The method `del`, guarded: its first step is `takeNode c.li node`. -/
def LRUCache.delG (c : LRUCache V) (node : Nat) : Option (LRUCache V) :=
  if linkedNode c.li node then c.del node else none

/-- The method `Get`, guarded. -/
def LRUCache.GetG (c : LRUCache V) (now : Int) (key : String) :
    Option ((Option V × Bool) × LRUCache V) :=
  match mapGet c.dic key with
  | none => some ((none, false), c)
  | some node => do
    let n ← c.li.mem[node]?
    if isTimeout now n.deadline then
      let c1 ← c.delG node
      pure ((none, false), c1)
    else if linkedNode c.li node then
      let l1 ← upToHead c.li node
      let n1 ← l1.mem[node]?
      pure ((n1.data.data, true), { c with li := l1 })
    else none

/-- The method `limitLen`, guarded. -/
def LRUCache.limitLenG (c : LRUCache V) : Option (LRUCache V) :=
  if c.Len < c.Cap then some c
  else do
    let e ← c.li.mem[c.li.end_]?
    let lastNode ← e.pre
    c.delG lastNode

/-- The method `Put`, guarded. -/
def LRUCache.PutG (c : LRUCache V) (key : String) (data : Option V) : Option (LRUCache V) := do
  let r ← addNode c.li key data
  LRUCache.limitLenG { c with li := r.1, dic := mapSet c.dic key r.2 }

/-- The method `Del`, guarded. -/
def LRUCache.DelG (c : LRUCache V) (key : String) : Option (LRUCache V) :=
  match mapGet c.dic key with
  | none => some c
  | some node => c.delG node

/-- The loop of `cleanTimeoutNode`, guarded. -/
def cleanLoopG : Nat → LRUCache V → Int → Option Nat → Int → Option (LRUCache V × Int)
  | 0, _, _, _, _ => none
  | _ + 1, _, _, none, _ => none
  | fuel + 1, c, now, some n, cleanSum =>
    if n = c.li.head then some (c, cleanSum)
    else
      match c.li.mem[n]? with
      | none => none
      | some nd =>
        if isTimeout now nd.deadline then
          match c.delG n with
          | none => none
          | some c1 =>
            match c1.li.mem[n]? with
            | none => none
            | some nd1 => cleanLoopG fuel c1 now nd1.pre (cleanSum + 1)
        else some (c, cleanSum)

/-- The method `runClean`, guarded. -/
def LRUCache.runCleanG (c : LRUCache V) (now : Int) : Option (LRUCache V) :=
  if c.Len < Int.tdiv c.Cap 2 then some c
  else
    match c.li.mem[c.li.end_]? with
    | none => none
    | some e => (cleanLoopG (c.li.mem.length + 1) c now e.pre 0).map (fun r => r.1)

/-- The state after one call, guarded. -/
def stepG (c : LRUCache V) : Op V → Option (LRUCache V)
  | .put key data => c.PutG key data
  | .get now key => (c.GetG now key).map (fun r => r.2)
  | .del key => c.DelG key
  | .sweep now => c.runCleanG now

/-! ## Well-formed states -/

/-- In the store, `y` is the successor of `x` and `x` is the predecessor of `y`. -/
def Adj (m : List (listNode V)) (x y : Nat) : Prop :=
  nextOf m x = some y ∧ preOf m y = some x

/-- The list links exactly the nodes `ps`, in this order, between its two sentinels, and
its field `len` counts them. -/
structure ListWf (l : list V) (ps : List Nat) : Prop where
  nodup : (l.head :: ps ++ [l.end_]).Nodup
  chain : List.Chain' (Adj l.mem) (l.head :: ps ++ [l.end_])
  len : l.len = ps.length
  room : ps.length + 2 ≤ l.mem.length

/-- The list `l1` has the sentinels, the capacity and the allocated nodes of `l`, and
every node has kept its deadline and its payload: only links and `len` may differ. -/
def Frame (l l1 : list V) : Prop :=
  l1.head = l.head ∧ l1.end_ = l.end_ ∧ l1.cap = l.cap ∧ l1.mem.length = l.mem.length ∧
    ∀ q, infoOf l1.mem q = infoOf l.mem q

/-- The key carried by the node `p`. -/
def keyOf (m : List (listNode V)) (p : Nat) : Option String :=
  (infoOf m p).map (fun i => i.2.key)

/-- The cache is well formed, its linked nodes being `ps`: the list is well formed, the
index has no key twice, and every index entry points to a linked node carrying its key. -/
structure Wf (c : LRUCache V) (ps : List Nat) : Prop where
  list : ListWf c.li ps
  dic_nodup : (c.dic.map Prod.fst).Nodup
  dic_mem : ∀ k n, (k, n) ∈ c.dic → n ∈ ps ∧ keyOf c.li.mem n = some k

/-- The cache is well formed for some sequence of linked nodes. -/
def WellFormed (c : LRUCache V) : Prop := ∃ ps, Wf c ps

/-- Capacity and TTL are those of `c`, and the list is framed as in `Frame`. -/
def CFrame (c c1 : LRUCache V) : Prop :=
  c1.cap = c.cap ∧ c1.duration = c.duration ∧ Frame c.li c1.li

/-- The test `isTimeout(p.deadline)` at the clock reading `now`. -/
def expiredAt (m : List (listNode V)) (now : Int) (p : Nat) : Bool :=
  match infoOf m p with
  | some i => isTimeout now i.1
  | none => false

/-- Every allocated node has the deadline 0. -/
def ZeroDeadlines (c : LRUCache V) : Prop :=
  ∀ q i, infoOf c.li.mem q = some i → i.1 = 0

/-- A sample state: the cache of capacity 5 and TTL one second after `Put a`, `Put b`. -/
def sampleCache : LRUCache String :=
  { cap := 5, duration := 1000000000, dic := [("b", 3), ("a", 2)],
    li :=
      { cap := 5, len := 2, head := 0, end_ := 1,
        mem :=
          [{ deadline := 0, data := { key := "", data := none }, pre := none, next := some 3 },
           { deadline := 0, data := { key := "", data := none }, pre := some 2, next := none },
           { deadline := 0, data := { key := "a", data := some "aa" }, pre := some 3,
             next := some 1 },
           { deadline := 0, data := { key := "b", data := some "bb" }, pre := some 0,
             next := some 2 }] } }

/-- A sample well-formed state: x, y, z linked in this order, with the deadlines 0, 100, 0. -/
def mixedCache : LRUCache String :=
  { cap := 5, duration := 1000000000, dic := [("x", 2), ("y", 3), ("z", 4)],
    li :=
      { cap := 5, len := 3, head := 0, end_ := 1,
        mem :=
          [{ deadline := 0, data := { key := "", data := none }, pre := none, next := some 2 },
           { deadline := 0, data := { key := "", data := none }, pre := some 4, next := none },
           { deadline := 0, data := { key := "x", data := some "xx" }, pre := some 0,
             next := some 3 },
           { deadline := 100, data := { key := "y", data := some "yy" }, pre := some 2,
             next := some 4 },
           { deadline := 0, data := { key := "z", data := some "zz" }, pre := some 3,
             next := some 1 }] } }

theorem setNext_spec {m : List (listNode V)} {p : Nat} (v : Option Nat) (hp : p < m.length) :
    ∃ m1, setNext m p v = some m1 ∧ m1.length = m.length ∧
      (∀ q, nextOf m1 q = if q = p then v else nextOf m q) ∧
      (∀ q, preOf m1 q = preOf m q) ∧ (∀ q, infoOf m1 q = infoOf m q) := by
  have hg : m[p]? = some m[p] := List.getElem?_eq_getElem hp
  refine ⟨m.set p { m[p] with next := v }, by simp [setNext, hg], by simp, ?_, ?_, ?_⟩
  · intro q
    by_cases hq : q = p
    · subst hq; simp [nextOf, hp]
    · simp [nextOf, hq, List.getElem?_set_ne (Ne.symm hq)]
  · intro q
    by_cases hq : q = p
    · subst hq; simp [preOf, hp, hg]
    · simp [preOf, List.getElem?_set_ne (Ne.symm hq)]
  · intro q
    by_cases hq : q = p
    · subst hq; simp [infoOf, hp, hg]
    · simp [infoOf, List.getElem?_set_ne (Ne.symm hq)]

theorem setPre_spec {m : List (listNode V)} {p : Nat} (v : Option Nat) (hp : p < m.length) :
    ∃ m1, setPre m p v = some m1 ∧ m1.length = m.length ∧
      (∀ q, preOf m1 q = if q = p then v else preOf m q) ∧
      (∀ q, nextOf m1 q = nextOf m q) ∧ (∀ q, infoOf m1 q = infoOf m q) := by
  have hg : m[p]? = some m[p] := List.getElem?_eq_getElem hp
  refine ⟨m.set p { m[p] with pre := v }, by simp [setPre, hg], by simp, ?_, ?_, ?_⟩
  · intro q
    by_cases hq : q = p
    · subst hq; simp [preOf, hp]
    · simp [preOf, hq, List.getElem?_set_ne (Ne.symm hq)]
  · intro q
    by_cases hq : q = p
    · subst hq; simp [nextOf, hp, hg]
    · simp [nextOf, List.getElem?_set_ne (Ne.symm hq)]
  · intro q
    by_cases hq : q = p
    · subst hq; simp [infoOf, hp, hg]
    · simp [infoOf, List.getElem?_set_ne (Ne.symm hq)]

theorem getElem?_of_nextOf {m : List (listNode V)} {p f : Nat} (h : nextOf m p = some f) :
    ∃ n, m[p]? = some n ∧ n.next = some f := by
  unfold nextOf at h
  cases hn : m[p]? with
  | none => simp [hn] at h
  | some n => exact ⟨n, rfl, by simpa [hn] using h⟩

theorem getElem?_of_preOf {m : List (listNode V)} {p f : Nat} (h : preOf m p = some f) :
    ∃ n, m[p]? = some n ∧ n.pre = some f := by
  unfold preOf at h
  cases hn : m[p]? with
  | none => simp [hn] at h
  | some n => exact ⟨n, rfl, by simpa [hn] using h⟩

theorem lt_of_nextOf {m : List (listNode V)} {p f : Nat} (h : nextOf m p = some f) :
    p < m.length := by
  obtain ⟨n, hn, _⟩ := getElem?_of_nextOf h
  exact (List.getElem?_eq_some.mp hn).1

theorem lt_of_preOf {m : List (listNode V)} {p f : Nat} (h : preOf m p = some f) :
    p < m.length := by
  obtain ⟨n, hn, _⟩ := getElem?_of_preOf h
  exact (List.getElem?_eq_some.mp hn).1

/-- What `insertList` does to the store, read through the link fields. -/
theorem insertList_spec (l : list V) (x f : Nat) (hx : x < l.mem.length)
    (hf : nextOf l.mem l.head = some f) (hfl : f < l.mem.length) :
    ∃ l1, insertList l x = some l1 ∧ l1.len = l.len + 1 ∧ l1.head = l.head ∧
      l1.end_ = l.end_ ∧ l1.cap = l.cap ∧ l1.mem.length = l.mem.length ∧
      (∀ q, nextOf l1.mem q =
        if q = l.head then some x else if q = x then some f else nextOf l.mem q) ∧
      (∀ q, preOf l1.mem q =
        if q = x then some l.head else if q = f then some x else preOf l.mem q) ∧
      (∀ q, infoOf l1.mem q = infoOf l.mem q) := by
  obtain ⟨h, hh, hhn⟩ := getElem?_of_nextOf hf
  have hhl : l.head < l.mem.length := lt_of_nextOf hf
  obtain ⟨m1, e1, len1, n1, p1, i1⟩ := setNext_spec (m := l.mem) h.next hx
  have hf1 : nextOf m1 l.head = some f := by
    rw [n1]; split <;> simp [hhn, hf]
  obtain ⟨h1, hh1, hhn1⟩ := getElem?_of_nextOf hf1
  obtain ⟨m2, e2, len2, p2, n2, i2⟩ := setPre_spec (m := m1) (some x) (p := f) (by omega)
  obtain ⟨m3, e3, len3, n3, p3, i3⟩ := setNext_spec (m := m2) (some x) (p := l.head) (by omega)
  obtain ⟨m4, e4, len4, p4, n4, i4⟩ := setPre_spec (m := m3) (some l.head) (p := x) (by omega)
  refine ⟨{ l with mem := m4, len := l.len + 1 }, ?_, rfl, rfl, rfl, rfl, by simp; omega, ?_, ?_, ?_⟩
  · simp [insertList, hh, e1, hh1, hhn1, e2, e3, e4]
  · intro q
    simp only [n4, n3, n2, n1, hhn]
  · intro q
    simp only [p4, p3, p2, p1]
  · intro q
    simp only [i4, i3, i2, i1]

/-- What `takeNode` does to the store, read through the link fields. -/
theorem takeNode_spec (l : list V) (x p q : Nat)
    (hp : preOf l.mem x = some p) (hq : nextOf l.mem x = some q)
    (hpl : p < l.mem.length) (hql : q < l.mem.length) :
    ∃ l1, takeNode l x = some l1 ∧ l1.len = l.len - 1 ∧ l1.head = l.head ∧
      l1.end_ = l.end_ ∧ l1.cap = l.cap ∧ l1.mem.length = l.mem.length ∧
      (∀ r, nextOf l1.mem r = if r = p then some q else nextOf l.mem r) ∧
      (∀ r, preOf l1.mem r = if r = q then some p else preOf l.mem r) ∧
      (∀ r, infoOf l1.mem r = infoOf l.mem r) := by
  obtain ⟨n, hn, hnp⟩ := getElem?_of_preOf hp
  have hnq : n.next = some q := by simpa [nextOf, hn] using hq
  obtain ⟨m1, e1, len1, n1, p1, i1⟩ := setNext_spec (m := l.mem) n.next hpl
  have hq1 : nextOf m1 x = some q := by
    rw [n1]; split <;> simp [hnq, hq]
  have hp1 : preOf m1 x = some p := by rw [p1]; exact hp
  obtain ⟨nn, hnn, hnnq⟩ := getElem?_of_nextOf hq1
  have hnnp : nn.pre = some p := by simpa [preOf, hnn] using hp1
  obtain ⟨m2, e2, len2, p2, n2, i2⟩ := setPre_spec (m := m1) nn.pre (p := q) (by omega)
  refine ⟨{ l with mem := m2, len := l.len - 1 }, ?_, rfl, rfl, rfl, rfl, by simp; omega, ?_, ?_, ?_⟩
  · simp [takeNode, hn, hnp, e1, hnn, hnnq, e2]
  · intro r
    simp only [n2, n1, hnq]
  · intro r
    simp only [p2, p1, hnnp]
  · intro r
    simp only [i2, i1]

/-! ## Chains of linked nodes -/

/-- A chain survives a change of the store that keeps `next` on all its nodes but the
last and `pre` on all but the first. -/
theorem chain_frame {m m1 : List (listNode V)} : ∀ (cs : List Nat),
    List.Chain' (Adj m) cs →
    (∀ x ∈ cs.dropLast, nextOf m1 x = nextOf m x) →
    (∀ x ∈ cs.tail, preOf m1 x = preOf m x) → List.Chain' (Adj m1) cs
  | [], _, _, _ => List.chain'_nil
  | [_], _, _, _ => List.chain'_singleton _
  | a :: b :: t, hc, hn, hp => by
    rw [List.chain'_cons] at hc ⊢
    refine ⟨⟨?_, ?_⟩, chain_frame (b :: t) hc.2 ?_ ?_⟩
    · rw [hn a (by simp)]; exact hc.1.1
    · rw [hp b (by simp)]; exact hc.1.2
    · intro x hx
      exact hn x (by simp only [List.dropLast_cons₂]; exact List.mem_cons_of_mem _ hx)
    · intro x hx
      exact hp x (by simp only [List.tail_cons] at hx ⊢; exact List.mem_cons_of_mem _ hx)

/-- Every node of a chain of at least two nodes is allocated. -/
theorem chain_lt {m : List (listNode V)} : ∀ (cs : List Nat),
    List.Chain' (Adj m) cs → 2 ≤ cs.length → ∀ x ∈ cs, x < m.length
  | [], _, h, _, _ => by simp at h
  | [_], _, h, _, _ => by simp at h
  | [a, b], hc, _, x, hx => by
    rw [List.chain'_cons] at hc
    simp only [List.mem_cons, List.mem_singleton, List.not_mem_nil, or_false] at hx
    rcases hx with rfl | rfl
    · exact lt_of_nextOf hc.1.1
    · exact lt_of_preOf hc.1.2
  | a :: b :: c :: t, hc, _, x, hx => by
    rw [List.chain'_cons] at hc
    rcases List.mem_cons.mp hx with rfl | hx
    · exact lt_of_nextOf hc.1.1
    · exact chain_lt (b :: c :: t) hc.2 (by simp) x hx

/-- The forward walk from the head of a chain returns the nodes of the chain. -/
theorem walk_chain {m : List (listNode V)} {e : Nat} : ∀ (ps : List Nat) (a fuel : Nat),
    List.Chain' (Adj m) (a :: ps ++ [e]) → e ∉ ps → ps.length + 1 ≤ fuel →
    walk m e fuel (nextOf m a) = ps
  | [], a, fuel, hc, _, hf => by
    have h : nextOf m a = some e := by
      simp only [List.cons_append, List.nil_append, List.chain'_cons] at hc
      exact hc.1.1
    obtain ⟨k, rfl⟩ : ∃ k, fuel = k + 1 := ⟨fuel - 1, by simp at hf; omega⟩
    simp [h, walk]
  | p :: t, a, fuel, hc, he, hf => by
    simp only [List.cons_append, List.chain'_cons] at hc
    obtain ⟨k, rfl⟩ : ∃ k, fuel = k + 1 := ⟨fuel - 1, by simp at hf; omega⟩
    have hpe : p ≠ e := fun h => he (by simp [h])
    rw [hc.1.1]
    simp only [walk, hpe, if_false]
    rw [walk_chain t p k (by simpa using hc.2) (fun h => he (List.mem_cons_of_mem _ h))
      (by simp at hf; omega)]

theorem nodup_parts {a e : Nat} {ps : List Nat} (h : (a :: ps ++ [e]).Nodup) :
    a ∉ ps ∧ a ≠ e ∧ e ∉ ps ∧ ps.Nodup := by
  rw [List.cons_append, List.nodup_cons, List.nodup_append] at h
  obtain ⟨h1, h2, _, h4⟩ := h
  refine ⟨fun hm => h1 (List.mem_append_left _ hm), ?_, ?_, h2⟩
  · rintro rfl; exact h1 (by simp)
  · intro hm; exact h4 hm (List.mem_singleton_self _)

theorem nodup_of_parts {a e : Nat} {ps : List Nat} (h1 : a ∉ ps) (h2 : a ≠ e) (h3 : e ∉ ps)
    (h4 : ps.Nodup) : (a :: ps ++ [e]).Nodup := by
  rw [List.cons_append, List.nodup_cons, List.nodup_append]
  refine ⟨?_, h4, List.nodup_singleton _, ?_⟩
  · simp [h1, h2]
  · intro x hx hx2
    rw [List.mem_singleton] at hx2
    exact h3 (hx2 ▸ hx)

/-- The nodes reachable from the head of a well-formed list are the nodes it links. -/
theorem ListWf.nodes_eq {l : list V} {ps : List Nat} (h : ListWf l ps) : l.nodes = ps := by
  unfold list.nodes
  apply walk_chain ps l.head l.mem.length h.chain (nodup_parts h.nodup).2.2.1
  have := h.room; omega

theorem ListWf.lt_length {l : list V} {ps : List Nat} (h : ListWf l ps) :
    ∀ x ∈ l.head :: ps ++ [l.end_], x < l.mem.length :=
  chain_lt _ h.chain (by simp)

/-- The four link assignments of `insertList` put `x` between `h` and its successor. -/
theorem chain_insert {m m1 : List (listNode V)} {h x f : Nat} {B : List Nat}
    (hnd : (h :: f :: B).Nodup) (hx : x ∉ h :: f :: B)
    (hc : List.Chain' (Adj m) (h :: f :: B))
    (hn : ∀ q, nextOf m1 q = if q = h then some x else if q = x then some f else nextOf m q)
    (hp : ∀ q, preOf m1 q = if q = x then some h else if q = f then some x else preOf m q) :
    List.Chain' (Adj m1) (h :: x :: f :: B) := by
  simp only [List.mem_cons, not_or] at hx
  obtain ⟨hxh, hxf, hxB⟩ := hx
  simp only [List.nodup_cons, List.mem_cons, not_or] at hnd
  obtain ⟨⟨hhf, hhB⟩, hfB, hB⟩ := hnd
  rw [List.chain'_cons] at hc
  rw [List.chain'_cons, List.chain'_cons]
  refine ⟨⟨?_, ?_⟩, ⟨?_, ?_⟩, chain_frame (f :: B) hc.2 ?_ ?_⟩
  · simp [hn]
  · simp [hp]
  · simp [hn, hxh]
  · simp [hp, Ne.symm hxf]
  · intro y hy
    have hy2 : y ∈ f :: B := List.dropLast_subset _ hy
    have h1 : y ≠ h := by
      rintro rfl
      rcases List.mem_cons.mp hy2 with e | e
      · exact hhf e
      · exact hhB e
    have h2 : y ≠ x := by
      rintro rfl
      rcases List.mem_cons.mp hy2 with e | e
      · exact hxf e
      · exact hxB e
    simp [hn, h1, h2]
  · intro y hy
    simp only [List.tail_cons] at hy
    have h1 : y ≠ x := by rintro rfl; exact hxB hy
    have h2 : y ≠ f := by rintro rfl; exact hfB hy
    simp [hp, h1, h2]

/-- The two link assignments of `takeNode` close the chain over `x`. -/
theorem chain_take {m m1 : List (listNode V)} {A B : List Nat} {p x q : Nat}
    (hnd : (A ++ p :: x :: q :: B).Nodup)
    (hc : List.Chain' (Adj m) (A ++ p :: x :: q :: B))
    (hn : ∀ r, nextOf m1 r = if r = p then some q else nextOf m r)
    (hp : ∀ r, preOf m1 r = if r = q then some p else preOf m r) :
    List.Chain' (Adj m1) (A ++ p :: q :: B) := by
  rw [List.chain'_split] at hc ⊢
  obtain ⟨hc1, hc2⟩ := hc
  rw [List.chain'_cons, List.chain'_cons] at hc2
  rw [List.nodup_append] at hnd
  obtain ⟨_, hnd2, hdis⟩ := hnd
  simp only [List.nodup_cons, List.mem_cons, not_or] at hnd2
  obtain ⟨⟨hpx, hpq, hpB⟩, ⟨hxq, hxB⟩, hqB, hB⟩ := hnd2
  refine ⟨chain_frame _ hc1 ?_ ?_, ?_⟩
  · intro y hy
    simp only [List.dropLast_concat] at hy
    have h1 : y ≠ p := by rintro rfl; exact hdis hy (by simp)
    simp [hn, h1]
  · intro y hy
    have hy2 : y ∈ A ++ [p] := List.tail_subset _ hy
    have h1 : y ≠ q := by
      rintro rfl
      rcases List.mem_append.mp hy2 with e | e
      · exact hdis e (by simp)
      · simp at e; exact hpq e.symm
    simp [hp, h1]
  · rw [List.chain'_cons]
    refine ⟨⟨by simp [hn], by simp [hp]⟩, chain_frame _ hc2.2.2 ?_ ?_⟩
    · intro y hy
      have hy2 : y ∈ q :: B := List.dropLast_subset _ hy
      have h1 : y ≠ p := by
        rintro rfl
        rcases List.mem_cons.mp hy2 with e | e
        · exact hpq e
        · exact hpB e
      simp [hn, h1]
    · intro y hy
      simp only [List.tail_cons] at hy
      have h1 : y ≠ q := by rintro rfl; exact hqB hy
      simp [hp, h1]

/-- The method `insertList` on a well-formed list and an allocated, unlinked node. -/
theorem ListWf.insert_front {l : list V} {ps : List Nat} (h : ListWf l ps) {x : Nat}
    (hx : x < l.mem.length) (hxn : x ∉ l.head :: ps ++ [l.end_])
    (hroom : ps.length + 3 ≤ l.mem.length) :
    ∃ l1, insertList l x = some l1 ∧ ListWf l1 (x :: ps) ∧ Frame l l1 ∧
      l1.len = l.len + 1 := by
  obtain ⟨f, B, hfB⟩ : ∃ f B, ps ++ [l.end_] = f :: B := by
    cases ps with
    | nil => exact ⟨_, _, rfl⟩
    | cons a t => exact ⟨a, t ++ [l.end_], rfl⟩
  have hcs : l.head :: ps ++ [l.end_] = l.head :: f :: B := by rw [List.cons_append, hfB]
  have hc := h.chain
  have hnd := h.nodup
  have hfl : f < l.mem.length := h.lt_length f (by rw [hcs]; simp)
  rw [hcs] at hc hnd hxn
  have hf : nextOf l.mem l.head = some f := (List.chain'_cons.mp hc).1.1
  obtain ⟨l1, e, hlen, hhead, hend, hcap, hmlen, hn, hp, hi⟩ := insertList_spec l x f hx hf hfl
  have e2 : l1.head :: (x :: ps) ++ [l1.end_] = l.head :: x :: f :: B := by
    rw [hhead, hend, List.cons_append, List.cons_append, hfB]
  refine ⟨l1, e, ⟨?_, ?_, ?_, ?_⟩, ⟨hhead, hend, hcap, hmlen, hi⟩, hlen⟩
  · rw [e2]
    simp only [List.nodup_cons, List.mem_cons, not_or] at hnd hxn ⊢
    exact ⟨⟨Ne.symm hxn.1, hnd.1.1, hnd.1.2⟩, ⟨hxn.2.1, hxn.2.2⟩, hnd.2.1, hnd.2.2⟩
  · rw [e2]
    exact chain_insert hnd hxn hc hn hp
  · rw [hlen, h.len]; simp
  · rw [hmlen]; simp; omega

/-- The method `takeNode` on a linked node; the node keeps its own `pre` link. -/
theorem ListWf.take_mid {l : list V} {s t : List Nat} {x : Nat} (h : ListWf l (s ++ x :: t)) :
    ∃ l1, takeNode l x = some l1 ∧ ListWf l1 (s ++ t) ∧ Frame l l1 ∧ l1.len = l.len - 1 ∧
      preOf l1.mem x = (l.head :: s).getLast? := by
  obtain ⟨A, p, hAp⟩ : ∃ A p, l.head :: s = A ++ [p] :=
    ⟨(l.head :: s).dropLast, (l.head :: s).getLast (List.cons_ne_nil _ _),
      (List.dropLast_append_getLast _).symm⟩
  obtain ⟨q, B, hqB⟩ : ∃ q B, t ++ [l.end_] = q :: B := by
    cases t with
    | nil => exact ⟨_, _, rfl⟩
    | cons a t => exact ⟨a, t ++ [l.end_], rfl⟩
  have hlast : (l.head :: s).getLast? = some p := by
    rw [hAp, List.getLast?_concat]
  have hcs : l.head :: (s ++ x :: t) ++ [l.end_] = A ++ p :: x :: q :: B := by
    rw [← List.cons_append, hAp]; simp [hqB]
  have hcs2 : l.head :: (s ++ t) ++ [l.end_] = A ++ p :: q :: B := by
    rw [← List.cons_append, hAp]; simp [hqB]
  have hc := h.chain
  have hnd := h.nodup
  have hlt := h.lt_length
  rw [hcs] at hc hnd hlt
  have hc2 := (List.chain'_split.mp hc).2
  rw [List.chain'_cons, List.chain'_cons] at hc2
  obtain ⟨l1, e, hlen, hhead, hend, hcap, hmlen, hn, hp, hi⟩ :=
    takeNode_spec l x p q hc2.1.2 hc2.2.1.1 (hlt p (by simp)) (hlt q (by simp))
  have hxq : x ≠ q := by
    intro hxq
    have := (List.nodup_append.mp hnd).2.1
    simp [List.nodup_cons, hxq] at this
  refine ⟨l1, e, ⟨?_, ?_, ?_, ?_⟩, ⟨hhead, hend, hcap, hmlen, hi⟩, hlen, ?_⟩
  · rw [hhead, hend, hcs2]
    have hsub : (A ++ p :: q :: B).Sublist (A ++ p :: x :: q :: B) :=
      List.Sublist.append_left
        (List.Sublist.cons₂ _ (List.Sublist.cons _ (List.Sublist.refl _))) _
    exact hnd.sublist hsub
  · rw [hhead, hend, hcs2]
    exact chain_take hnd hc hn hp
  · rw [hlen, h.len]; simp; omega
  · rw [hmlen]; have := h.room; simp at this ⊢; omega
  · rw [hp, if_neg hxq, hlast]; exact hc2.1.2

/-! ## The index -/

theorem mapGet_mem : ∀ {d : List (String × Nat)} {k : String} {n : Nat},
    mapGet d k = some n → (k, n) ∈ d
  | [], _, _, h => by simp [mapGet] at h
  | (k1, n1) :: t, k, n, h => by
    unfold mapGet at h
    by_cases hk : k1 = k
    · simp only [hk, if_true, Option.some.injEq] at h
      subst hk; subst h; exact List.mem_cons_self _ _
    · simp only [hk, if_false] at h
      exact List.mem_cons_of_mem _ (mapGet_mem h)

theorem mapGet_eq_none : ∀ {d : List (String × Nat)} {k : String},
    mapGet d k = none ↔ k ∉ d.map Prod.fst
  | [], _ => by simp [mapGet]
  | (k1, n1) :: t, k => by
    unfold mapGet
    by_cases hk : k1 = k
    · simp [hk]
    · simp only [hk, if_false, List.map_cons, List.mem_cons, not_or]
      rw [mapGet_eq_none]
      exact ⟨fun h => ⟨fun e => hk e.symm, h⟩, fun h => h.2⟩

theorem mapGet_of_mem : ∀ {d : List (String × Nat)} {k : String} {n : Nat},
    (d.map Prod.fst).Nodup → (k, n) ∈ d → mapGet d k = some n
  | [], _, _, _, h => by simp at h
  | (k1, n1) :: t, k, n, hnd, h => by
    rw [List.map_cons, List.nodup_cons] at hnd
    unfold mapGet
    rcases List.mem_cons.mp h with e | e
    · cases e; simp
    · have hk : k1 ≠ k := by
        rintro rfl
        exact hnd.1 (List.mem_map.mpr ⟨(k1, n), e, rfl⟩)
      simp only [hk, if_false]
      exact mapGet_of_mem hnd.2 e

theorem mem_mapDelete {d : List (String × Nat)} {k k1 : String} {n : Nat} :
    (k1, n) ∈ mapDelete d k ↔ (k1, n) ∈ d ∧ k1 ≠ k := by
  simp [mapDelete]

theorem mapDelete_nodup {d : List (String × Nat)} (k : String) (h : (d.map Prod.fst).Nodup) :
    ((mapDelete d k).map Prod.fst).Nodup :=
  h.sublist (List.Sublist.map _ (List.filter_sublist _))

theorem not_mem_mapDelete (d : List (String × Nat)) (k : String) :
    k ∉ (mapDelete d k).map Prod.fst := by
  simp [mapDelete]

theorem mapGet_mapDelete_self (d : List (String × Nat)) (k : String) :
    mapGet (mapDelete d k) k = none :=
  mapGet_eq_none.mpr (not_mem_mapDelete d k)

theorem mapDelete_of_none {d : List (String × Nat)} {k : String} (h : mapGet d k = none) :
    mapDelete d k = d := by
  rw [mapGet_eq_none] at h
  unfold mapDelete
  rw [List.filter_eq_self]
  intro e he
  have : e.1 ≠ k := by
    rintro rfl
    exact h (List.mem_map.mpr ⟨e, he, rfl⟩)
  simpa using this

theorem mapSet_nodup {d : List (String × Nat)} (k : String) (n : Nat)
    (h : (d.map Prod.fst).Nodup) : ((mapSet d k n).map Prod.fst).Nodup := by
  unfold mapSet
  rw [List.map_cons, List.nodup_cons]
  exact ⟨not_mem_mapDelete d k, mapDelete_nodup k h⟩

theorem mapGet_mapSet_self (d : List (String × Nat)) (k : String) (n : Nat) :
    mapGet (mapSet d k n) k = some n := by
  simp [mapSet, mapGet]

/-! ## The operations of the cache on well-formed states -/

theorem keyOf_frame {l l1 : list V} (h : Frame l l1) (q : Nat) :
    keyOf l1.mem q = keyOf l.mem q := by
  unfold keyOf; rw [h.2.2.2.2 q]

theorem infoOf_some {m : List (listNode V)} {x : Nat} (hx : x < m.length) :
    ∃ n, m[x]? = some n ∧ infoOf m x = some (n.deadline, n.data) :=
  ⟨m[x], List.getElem?_eq_getElem hx, by simp [infoOf, List.getElem?_eq_getElem hx]⟩

theorem infoOf_eq {m : List (listNode V)} {x : Nat} {n : listNode V} (h : m[x]? = some n) :
    infoOf m x = some (n.deadline, n.data) := by
  simp [infoOf, h]

theorem not_mem_of_nodup_mid {α : Type} {s t : List α} {x : α} (h : (s ++ x :: t).Nodup) :
    x ∉ s ++ t := by
  rw [List.nodup_append] at h
  obtain ⟨_, h2, h3⟩ := h
  rw [List.nodup_cons] at h2
  intro hm
  rcases List.mem_append.mp hm with e | e
  · exact h3 e (List.mem_cons_self _ _)
  · exact h2.1 e

theorem mem_mid_of_ne {α : Type} {s t : List α} {x y : α} (h : y ∈ s ++ x :: t) (hne : y ≠ x) :
    y ∈ s ++ t := by
  simp only [List.mem_append, List.mem_cons] at h ⊢
  rcases h with h | h | h
  · exact Or.inl h
  · exact absurd h hne
  · exact Or.inr h

/-- The method `del` on a linked node: the node leaves the list, its key leaves the index. -/
theorem Wf.del_mid {c : LRUCache V} {s t : List Nat} {x : Nat} (h : Wf c (s ++ x :: t)) :
    ∃ c1 k, c.del x = some c1 ∧ keyOf c.li.mem x = some k ∧ c1.dic = mapDelete c.dic k ∧
      Wf c1 (s ++ t) ∧ CFrame c c1 ∧ c1.li.len = c.li.len - 1 ∧
      preOf c1.li.mem x = (c.li.head :: s).getLast? := by
  obtain ⟨l1, e, hwf, hfr, hlen, hpre⟩ := h.list.take_mid
  have hx : x < l1.mem.length := by
    rw [hfr.2.2.2.1]; exact h.list.lt_length x (by simp)
  obtain ⟨n, hn, hinfo⟩ := infoOf_some hx
  have hk : keyOf c.li.mem x = some n.data.key := by
    rw [← keyOf_frame hfr]; simp [keyOf, hinfo]
  refine ⟨{ c with li := l1, dic := mapDelete c.dic n.data.key }, n.data.key, ?_, hk, rfl,
    ⟨hwf, mapDelete_nodup _ h.dic_nodup, ?_⟩, ⟨rfl, rfl, hfr⟩, hlen, hpre⟩
  · simp [LRUCache.del, e, hn]
  · intro k1 n1 hmem
    rw [mem_mapDelete] at hmem
    obtain ⟨hm1, hm2⟩ := h.dic_mem k1 n1 hmem.1
    have hne : n1 ≠ x := by
      rintro rfl
      rw [hk] at hm2
      exact hmem.2 (Option.some.inj hm2).symm
    exact ⟨mem_mid_of_ne hm1 hne, by rw [keyOf_frame hfr]; exact hm2⟩

/-- A fresh cache is well formed, with an empty list and an empty index. -/
theorem wf_init (typ : String) (cap duration : Int) (c0 : LRUCache V)
    (h : initLRUCache typ cap duration = some c0) :
    Wf c0 [] ∧ c0.cap = cap ∧ c0.duration = duration ∧ c0.dic = [] := by
  unfold initLRUCache at h
  split at h
  · simp at h
  · simp only [Option.some.injEq] at h
    subst h
    refine ⟨⟨⟨?_, ?_, rfl, ?_⟩, by simp, ?_⟩, rfl, rfl, rfl⟩
    · simp [newList]
    · simp [newList, Adj, nextOf, preOf]
    · simp [newList]
    · intro k n hm; simp at hm

theorem getElem?_extend (m : List (listNode V)) (n : listNode V) {q : Nat} (hq : q < m.length) :
    (m ++ [n])[q]? = m[q]? := List.getElem?_append_left hq

theorem ListWf.extend_mem {l : list V} {ps : List Nat} (h : ListWf l ps) (n : listNode V) :
    ListWf { l with mem := l.mem ++ [n] } ps := by
  refine ⟨h.nodup, chain_frame _ h.chain ?_ ?_, h.len, ?_⟩
  · intro y hy
    have := h.lt_length y (List.dropLast_subset _ hy)
    simp only [nextOf, getElem?_extend _ _ this]
  · intro y hy
    have := h.lt_length y (List.tail_subset _ hy)
    simp only [preOf, getElem?_extend _ _ this]
  · have := h.room; simp; omega

/-- The method `addNode` on a well-formed list: a fresh node is linked at the front. -/
theorem ListWf.add_node {l : list V} {ps : List Nat} (h : ListWf l ps) (key : String)
    (data : Option V) :
    ∃ l1, addNode l key data = some (l1, l.mem.length) ∧ ListWf l1 (l.mem.length :: ps) ∧
      l1.head = l.head ∧ l1.end_ = l.end_ ∧ l1.cap = l.cap ∧
      l1.mem.length = l.mem.length + 1 ∧ l1.len = l.len + 1 ∧
      infoOf l1.mem l.mem.length = some (0, { key := key, data := data }) ∧
      ∀ q, q < l.mem.length → infoOf l1.mem q = infoOf l.mem q := by
  have hext := h.extend_mem (newListNode key data)
  have hnot : l.mem.length ∉ l.head :: ps ++ [l.end_] := fun hm =>
    Nat.lt_irrefl _ (h.lt_length _ hm)
  obtain ⟨l1, e, hwf, hfr, hlen⟩ := hext.insert_front (x := l.mem.length) (by simp) hnot
    (by have := h.room; simp; omega)
  refine ⟨l1, ?_, hwf, hfr.1, hfr.2.1, hfr.2.2.1, ?_, hlen, ?_, ?_⟩
  · simp [Cache.addNode, e]
  · rw [hfr.2.2.2.1]; simp
  · rw [hfr.2.2.2.2]; simp [infoOf, newListNode]
  · intro q hq
    rw [hfr.2.2.2.2]; simp only [infoOf, getElem?_extend _ _ hq]

/-- The link `end.pre` points to the last node, or to the head when the list is empty. -/
theorem ListWf.pre_end {l : list V} {ps : List Nat} (h : ListWf l ps) :
    preOf l.mem l.end_ = (l.head :: ps).getLast? := by
  have hc := h.chain
  rw [← List.dropLast_append_getLast (List.cons_ne_nil l.head ps), List.append_assoc,
    List.singleton_append, List.chain'_split, List.chain'_cons] at hc
  rw [List.getLast?_eq_getLast _ (List.cons_ne_nil l.head ps)]
  exact hc.2.1.2

/-- The method `Put` on a well-formed cache: a fresh node goes to the front and into the
index; when the length then reaches the capacity, the last node is deleted. -/
theorem Wf.put_spec {c : LRUCache V} {ps : List Nat} (h : Wf c ps) (key : String)
    (data : Option V) :
    ∃ c1, c.Put key data = some c1 ∧ c1.cap = c.cap ∧ c1.duration = c.duration ∧
      c1.li.head = c.li.head ∧ c1.li.end_ = c.li.end_ ∧
      c1.li.mem.length = c.li.mem.length + 1 ∧
      infoOf c1.li.mem c.li.mem.length = some (0, { key := key, data := data }) ∧
      (∀ q, q < c.li.mem.length → infoOf c1.li.mem q = infoOf c.li.mem q) ∧
      ((c.li.len + 1 < c.cap ∧ Wf c1 (c.li.mem.length :: ps) ∧
          c1.dic = mapSet c.dic key c.li.mem.length ∧ c1.li.len = c.li.len + 1) ∨
       (¬ c.li.len + 1 < c.cap ∧ Wf c1 ((c.li.mem.length :: ps).dropLast) ∧
          c1.li.len = c.li.len ∧
          ∃ y k, (c.li.mem.length :: ps).getLast? = some y ∧ keyOf c1.li.mem y = some k ∧
            c1.dic = mapDelete (mapSet c.dic key c.li.mem.length) k)) := by
  obtain ⟨l1, e, hwf, hh, he, hc, hml, hlen, hix, hiq⟩ := h.list.add_node key data
  have hwf1 : Wf { c with li := l1, dic := mapSet c.dic key c.li.mem.length }
      (c.li.mem.length :: ps) := by
    refine ⟨hwf, mapSet_nodup _ _ h.dic_nodup, ?_⟩
    intro k n hm
    rcases List.mem_cons.mp hm with e1 | e1
    · cases e1
      exact ⟨List.mem_cons_self _ _, by simp [keyOf, hix]⟩
    · obtain ⟨h1, h2⟩ := h.dic_mem k n (mem_mapDelete.mp e1).1
      refine ⟨List.mem_cons_of_mem _ h1, ?_⟩
      have hn : n < c.li.mem.length := h.list.lt_length n (by simp [h1])
      simp only [keyOf, hiq n hn]
      exact h2
  by_cases hlt : c.li.len + 1 < c.cap
  · refine ⟨{ c with li := l1, dic := mapSet c.dic key c.li.mem.length }, ?_, rfl, rfl, hh, he,
      hml, hix, hiq, Or.inl ⟨hlt, hwf1, rfl, hlen⟩⟩
    simp [LRUCache.Put, e, LRUCache.limitLen, LRUCache.Len, LRUCache.Cap, hlen, hlt]
  · have hwf2 : Wf { c with li := l1, dic := mapSet c.dic key c.li.mem.length }
        ((c.li.mem.length :: ps).dropLast ++
          (c.li.mem.length :: ps).getLast (List.cons_ne_nil _ _) :: []) := by
      rw [List.dropLast_append_getLast]; exact hwf1
    obtain ⟨c2, k, edel, hk, hdic, hwf3, hfr, hlen2, _⟩ := hwf2.del_mid
    rw [List.append_nil] at hwf3
    have hpre := hwf.pre_end
    rw [List.getLast?_cons_cons, List.getLast?_eq_getLast _ (List.cons_ne_nil _ _)] at hpre
    obtain ⟨n, hn, hnpre⟩ := getElem?_of_preOf hpre
    obtain ⟨hf1, hf2, hf3, hf4, hf5, hf6, hf7⟩ := hfr
    simp only at hf1 hf2 hf3 hf4 hf5 hf6 hf7 hlen2 hdic hk
    refine ⟨c2, ?_, hf1, hf2, by rw [hf3, hh], by rw [hf4, he], by rw [hf6, hml],
      by rw [hf7, hix], fun q hq => by rw [hf7, hiq q hq],
      Or.inr ⟨hlt, hwf3, by rw [hlen2, hlen]; omega, _, k,
        List.getLast?_eq_getLast _ (List.cons_ne_nil _ _), ?_, hdic⟩⟩
    · simp [LRUCache.Put, e, LRUCache.limitLen, LRUCache.Len, LRUCache.Cap, hlen, hlt, hn,
        hnpre, edel]
    · rw [← hk]; simp only [keyOf, hf7]

theorem Frame.trans_frame {l l1 l2 : list V} (h1 : Frame l l1) (h2 : Frame l1 l2) : Frame l l2 :=
  ⟨h2.1.trans h1.1, h2.2.1.trans h1.2.1, h2.2.2.1.trans h1.2.2.1,
    h2.2.2.2.1.trans h1.2.2.2.1, fun q => (h2.2.2.2.2 q).trans (h1.2.2.2.2 q)⟩

theorem CFrame.trans_cframe {c c1 c2 : LRUCache V} (h1 : CFrame c c1) (h2 : CFrame c1 c2) :
    CFrame c c2 :=
  ⟨h2.1.trans h1.1, h2.2.1.trans h1.2.1, h1.2.2.trans_frame h2.2.2⟩

theorem CFrame.refl_cframe (c : LRUCache V) : CFrame c c :=
  ⟨rfl, rfl, rfl, rfl, rfl, rfl, fun _ => rfl⟩

theorem getElem?_of_infoOf {m : List (listNode V)} {x : Nat} {D : Int} {nd : nodeData V}
    (h : infoOf m x = some (D, nd)) : ∃ n, m[x]? = some n ∧ n.deadline = D ∧ n.data = nd := by
  unfold infoOf at h
  cases hn : m[x]? with
  | none => simp [hn] at h
  | some n =>
    simp only [hn, Option.map_some', Option.some.injEq, Prod.mk.injEq] at h
    exact ⟨n, rfl, h.1, h.2⟩

theorem Wf.key_of_get {c : LRUCache V} {ps : List Nat} (h : Wf c ps) {key : String} {x : Nat}
    (hk : mapGet c.dic key = some x) : x ∈ ps ∧ keyOf c.li.mem x = some key :=
  h.dic_mem key x (mapGet_mem hk)

/-- The method `upToHead` on a linked node: it moves to the front, the rest keeps its order. -/
theorem ListWf.up_to_head {l : list V} {s t : List Nat} {x : Nat} (h : ListWf l (s ++ x :: t)) :
    ∃ l1, Cache.upToHead l x = some l1 ∧ ListWf l1 (x :: (s ++ t)) ∧ Frame l l1 ∧
      l1.len = l.len := by
  obtain ⟨l1, e1, hwf1, hfr1, hlen1, _⟩ := h.take_mid
  have hx : x < l1.mem.length := by
    rw [hfr1.2.2.2.1]; exact h.lt_length x (by simp)
  have hparts := nodup_parts h.nodup
  have hxn : x ∉ l1.head :: (s ++ t) ++ [l1.end_] := by
    rw [hfr1.1, hfr1.2.1]
    simp only [List.cons_append, List.mem_cons, List.mem_append, List.mem_singleton,
      List.not_mem_nil, or_false, not_or]
    refine ⟨?_, ?_, ?_⟩
    · rintro rfl; exact hparts.1 (by simp)
    · have hm := not_mem_of_nodup_mid hparts.2.2.2
      exact ⟨fun e => hm (List.mem_append_left _ e), fun e => hm (List.mem_append_right _ e)⟩
    · rintro rfl; exact hparts.2.2.1 (by simp)
  obtain ⟨l2, e2, hwf2, hfr2, hlen2⟩ := hwf1.insert_front hx hxn (by
    rw [hfr1.2.2.2.1]; have := h.room; simp at this ⊢; omega)
  refine ⟨l2, by simp [Cache.upToHead, e1, e2], hwf2, hfr1.trans_frame hfr2, ?_⟩
  rw [hlen2, hlen1]; omega

theorem get_miss (c : LRUCache V) (now : Int) {key : String} (hk : mapGet c.dic key = none) :
    c.Get now key = some ((none, false), c) := by
  simp [LRUCache.Get, hk]

/-- The method `Get` on an indexed key whose deadline has passed: lazy deletion. -/
theorem Wf.get_expired {c : LRUCache V} {s t : List Nat} {x : Nat} (h : Wf c (s ++ x :: t))
    {key : String} (hk : mapGet c.dic key = some x) {D : Int} {nd : nodeData V}
    (hi : infoOf c.li.mem x = some (D, nd)) {now : Int} (hD : D ≤ now) :
    ∃ c1, c.Get now key = some ((none, false), c1) ∧ Wf c1 (s ++ t) ∧
      c1.dic = mapDelete c.dic key ∧ CFrame c c1 ∧ c1.li.len = c.li.len - 1 := by
  obtain ⟨n, hn, hnd, _⟩ := getElem?_of_infoOf hi
  obtain ⟨c1, k, edel, hkey, hdic, hwf, hfr, hlen, _⟩ := h.del_mid
  have hkk : k = key := by
    have := (h.key_of_get hk).2
    rw [hkey] at this; exact Option.some.inj this
  subst hkk
  refine ⟨c1, ?_, hwf, hdic, hfr, hlen⟩
  have hto : isTimeout now n.deadline = true := by
    simp [isTimeout, hnd, not_lt.mpr hD]
  simp [LRUCache.Get, hk, hn, hto, edel]

/-- The method `Get` on an indexed key whose deadline is still ahead: promotion. -/
theorem Wf.get_hit {c : LRUCache V} {s t : List Nat} {x : Nat} (h : Wf c (s ++ x :: t))
    {key : String} (hk : mapGet c.dic key = some x) {D : Int} {nd : nodeData V}
    (hi : infoOf c.li.mem x = some (D, nd)) {now : Int} (hD : now < D) :
    ∃ c1, c.Get now key = some ((nd.data, true), c1) ∧ Wf c1 (x :: (s ++ t)) ∧
      c1.dic = c.dic ∧ CFrame c c1 ∧ c1.li.len = c.li.len := by
  obtain ⟨n, hn, hnd, _⟩ := getElem?_of_infoOf hi
  obtain ⟨l1, e1, hwf1, hfr1, hlen1⟩ := h.list.up_to_head
  have hi1 : infoOf l1.mem x = some (D, nd) := by rw [hfr1.2.2.2.2]; exact hi
  obtain ⟨n1, hn1, _, hnd1⟩ := getElem?_of_infoOf hi1
  refine ⟨{ c with li := l1 }, ?_, ⟨hwf1, h.dic_nodup, ?_⟩, rfl, ⟨rfl, rfl, hfr1⟩, hlen1⟩
  · have hto : isTimeout now n.deadline = false := by
      simp [isTimeout, hnd, hD]
    simp [LRUCache.Get, hk, hn, hto, e1, hn1, hnd1]
  · intro k1 n2 hm
    obtain ⟨h1, h2⟩ := h.dic_mem k1 n2 hm
    refine ⟨?_, by rw [keyOf_frame hfr1]; exact h2⟩
    simp only [List.mem_cons, List.mem_append] at h1 ⊢
    tauto

/-- The method `Del` on an indexed key. -/
theorem Wf.del_present {c : LRUCache V} {s t : List Nat} {x : Nat} (h : Wf c (s ++ x :: t))
    {key : String} (hk : mapGet c.dic key = some x) :
    ∃ c1, c.Del key = some c1 ∧ Wf c1 (s ++ t) ∧ c1.dic = mapDelete c.dic key ∧
      CFrame c c1 ∧ c1.li.len = c.li.len - 1 := by
  obtain ⟨c1, k, edel, hkey, hdic, hwf, hfr, hlen, _⟩ := h.del_mid
  have hkk : k = key := by
    have := (h.key_of_get hk).2
    rw [hkey] at this; exact Option.some.inj this
  subst hkk
  exact ⟨c1, by simp [LRUCache.Del, hk, edel], hwf, hdic, hfr, hlen⟩

theorem Del_absent (c : LRUCache V) {key : String} (hk : mapGet c.dic key = none) :
    c.Del key = some c := by
  simp [LRUCache.Del, hk]

/-! ## The sweeper -/

theorem expiredAt_frame {l l1 : list V} (h : Frame l l1) (now : Int) (p : Nat) :
    expiredAt l1.mem now p = expiredAt l.mem now p := by
  unfold expiredAt; rw [h.2.2.2.2 p]

theorem isTimeout_of_expiredAt {m : List (listNode V)} {now : Int} {p : Nat} {n : listNode V}
    (hn : m[p]? = some n) : isTimeout now n.deadline = expiredAt m now p := by
  simp [expiredAt, infoOf_eq hn]

theorem filter_mapDelete (d : List (String × Nat)) (ks : List String) (k : String) :
    (mapDelete d k).filter (fun e => decide (e.1 ∉ ks)) =
      d.filter (fun e => decide (e.1 ∉ ks ++ [k])) := by
  unfold mapDelete
  rw [List.filter_filter]
  apply List.filter_congr
  intro e _
  by_cases h1 : e.1 ∈ ks <;> by_cases h2 : e.1 = k <;> simp [h1, h2]

/-- The loop of `cleanTimeoutNode`, started at the last node: it deletes the expired nodes
`t` at the tail and stops in front of them. -/
theorem Wf.clean_loop (now : Int) (s : List Nat) : ∀ (t : List Nat) (c : LRUCache V)
    (fuel : Nat) (cleanSum : Int),
    Wf c (s ++ t) → (∀ p ∈ t, expiredAt c.li.mem now p = true) →
    (∀ y, s.getLast? = some y → expiredAt c.li.mem now y = false) →
    t.length + 1 ≤ fuel →
    ∃ c1, Cache.cleanLoop fuel c now (c.li.head :: (s ++ t)).getLast? cleanSum =
        some (c1, cleanSum + t.length) ∧
      Wf c1 s ∧ CFrame c c1 ∧ c1.li.len = c.li.len - t.length ∧
      c1.dic = c.dic.filter (fun e => decide (e.1 ∉ t.filterMap (keyOf c.li.mem))) := by
  intro t
  induction t using List.reverseRecOn with
  | nil =>
    intro c fuel cleanSum hwf _ hs hfuel
    obtain ⟨k, rfl⟩ : ∃ k, fuel = k + 1 := ⟨fuel - 1, by omega⟩
    rw [List.append_nil] at hwf ⊢
    refine ⟨c, ?_, hwf, CFrame.refl_cframe c, by simp, by simp⟩
    rcases List.eq_nil_or_concat s with rfl | ⟨s1, y, hs1⟩
    · simp [Cache.cleanLoop]
    · rw [List.concat_eq_append] at hs1
      subst hs1
      have hy : y ≠ c.li.head := by
        rintro rfl
        exact (nodup_parts hwf.list.nodup).1 (by simp)
      have hyl : y < c.li.mem.length := hwf.list.lt_length y (by simp)
      have hexp := hs y (List.getLast?_concat _)
      rw [← isTimeout_of_expiredAt (List.getElem?_eq_getElem hyl)] at hexp
      have hl : (c.li.head :: (s1 ++ [y])).getLast? = some y := by
        rw [← List.cons_append, List.getLast?_concat]
      rw [hl]
      simp [Cache.cleanLoop, hy, List.getElem?_eq_getElem hyl, hexp]
  | append_singleton t y ih =>
    intro c fuel cleanSum hwf ht hs hfuel
    obtain ⟨k, rfl⟩ : ∃ k, fuel = k + 1 := ⟨fuel - 1, by omega⟩
    have hwf1 : Wf c ((s ++ t) ++ y :: []) := by rw [List.append_assoc]; exact hwf
    have hy : y ≠ c.li.head := by
      rintro rfl
      exact (nodup_parts hwf1.list.nodup).1 (by simp)
    have hyl : y < c.li.mem.length := hwf1.list.lt_length y (by simp)
    have hexp := ht y (by simp)
    rw [← isTimeout_of_expiredAt (List.getElem?_eq_getElem hyl)] at hexp
    obtain ⟨c1, ky, edel, hky, hdic1, hwf2, hfr, hlen, hpre⟩ := hwf1.del_mid
    rw [List.append_nil] at hwf2
    obtain ⟨nd1, hnd1, hnd1p⟩ : ∃ nd1, c1.li.mem[y]? = some nd1 ∧
        nd1.pre = (c.li.head :: (s ++ t)).getLast? := by
      have hyl1 : y < c1.li.mem.length := by rw [hfr.2.2.2.2.2.1]; exact hyl
      refine ⟨_, List.getElem?_eq_getElem hyl1, ?_⟩
      rw [← hpre]; simp [preOf, List.getElem?_eq_getElem hyl1]
    obtain ⟨c2, e2, hwf3, hfr2, hlen2, hdic2⟩ := ih c1 k (cleanSum + 1) hwf2
      (fun p hp => by rw [expiredAt_frame hfr.2.2]; exact ht p (by simp [hp]))
      (fun z hz => by rw [expiredAt_frame hfr.2.2]; exact hs z hz)
      (by simp at hfuel; omega)
    have hl : (c.li.head :: (s ++ (t ++ [y]))).getLast? = some y := by
      rw [← List.append_assoc, ← List.cons_append, List.getLast?_concat]
    refine ⟨c2, ?_, hwf3, hfr.trans_cframe hfr2, ?_, ?_⟩
    · rw [hl]
      simp only [Cache.cleanLoop, hy, if_false, List.getElem?_eq_getElem hyl, hexp, if_true,
        edel, hnd1, hnd1p]
      rw [← hfr.2.2.1, e2]
      simp; omega
    · rw [hlen2, hlen]; simp; omega
    · have hkeys : t.filterMap (keyOf c1.li.mem) = t.filterMap (keyOf c.li.mem) :=
        congrArg (fun f => List.filterMap f t) (funext (keyOf_frame hfr.2.2))
      rw [hdic2, hdic1, hkeys, filter_mapDelete, List.filterMap_append]
      simp [hky]

theorem rdropWhile_append_rtakeWhile {α : Type} (p : α → Bool) (l : List α) :
    l.rdropWhile p ++ l.rtakeWhile p = l := by
  unfold List.rdropWhile List.rtakeWhile
  rw [← List.reverse_append, List.takeWhile_append_dropWhile, List.reverse_reverse]

/-- The method `runClean` on a well-formed cache. -/
theorem Wf.run_clean {c : LRUCache V} {ps : List Nat} (h : Wf c ps) (now : Int) :
    ∃ c1, c.runClean now = some c1 ∧ CFrame c c1 ∧
      ((c.li.len < Int.tdiv c.cap 2 ∧ c1 = c) ∨
       (¬ c.li.len < Int.tdiv c.cap 2 ∧
          Wf c1 (ps.rdropWhile (expiredAt c.li.mem now)) ∧
          c1.li.len = c.li.len - (ps.rtakeWhile (expiredAt c.li.mem now)).length)) := by
  by_cases hlt : c.li.len < Int.tdiv c.cap 2
  · exact ⟨c, by simp [LRUCache.runClean, LRUCache.Len, LRUCache.Cap, hlt], CFrame.refl_cframe c,
      Or.inl ⟨hlt, rfl⟩⟩
  · have hsplit := rdropWhile_append_rtakeWhile (expiredAt c.li.mem now) ps
    have hwf : Wf c (ps.rdropWhile (expiredAt c.li.mem now) ++
        ps.rtakeWhile (expiredAt c.li.mem now)) := by rw [hsplit]; exact h
    obtain ⟨c1, e, hwf1, hfr, hlen, _⟩ := Wf.clean_loop now _ _ c (c.li.mem.length + 1) 0
      hwf (fun p hp => List.mem_rtakeWhile_imp hp)
      (fun y hy => by
        have hne : ps.rdropWhile (expiredAt c.li.mem now) ≠ [] := by
          intro h0; rw [h0] at hy; simp at hy
        have := List.rdropWhile_last_not (expiredAt c.li.mem now) ps hne
        rw [List.getLast?_eq_getLast _ hne] at hy
        rw [← Option.some.inj hy]
        simpa using this)
      (by
        have h1 := h.list.room
        have h2 : (ps.rtakeWhile (expiredAt c.li.mem now)).length ≤ ps.length :=
          (List.rtakeWhile_suffix _ _).length_le
        omega)
    rw [hsplit, ← h.list.pre_end] at e
    obtain ⟨n, hn, hnp⟩ : ∃ n, c.li.mem[c.li.end_]? = some n ∧ n.pre = preOf c.li.mem c.li.end_ := by
      have hl : c.li.end_ < c.li.mem.length := h.list.lt_length _ (by simp)
      exact ⟨_, List.getElem?_eq_getElem hl, by simp [preOf, List.getElem?_eq_getElem hl]⟩
    refine ⟨c1, ?_, hfr, Or.inr ⟨hlt, hwf1, hlen⟩⟩
    simp [LRUCache.runClean, LRUCache.Len, LRUCache.Cap, hlt, LRUCache.cleanTimeoutNode, hn,
      hnp, e]

/-! ## Reachable states -/

theorem zero_of_cframe {c c1 : LRUCache V} (h : CFrame c c1) (hz : ZeroDeadlines c) :
    ZeroDeadlines c1 := fun q i hi => hz q i (by rw [← h.2.2.2.2.2.2 q]; exact hi)

theorem infoOf_lt {m : List (listNode V)} {q : Nat} {i : Int × nodeData V}
    (h : infoOf m q = some i) : q < m.length := by
  unfold infoOf at h
  by_contra hq
  rw [List.getElem?_eq_none (not_lt.mp hq)] at h
  simp at h

/-- Every call succeeds on a well-formed cache and leaves it well formed. -/
theorem wf_step {c : LRUCache V} {ps : List Nat} (h : Wf c ps) (o : Op V) :
    ∃ c1 ps1, step c o = some c1 ∧ Wf c1 ps1 ∧ c1.cap = c.cap ∧ c1.duration = c.duration ∧
      (ZeroDeadlines c → ZeroDeadlines c1) ∧
      c1.li.head = c.li.head ∧ c1.li.end_ = c.li.end_ := by
  cases o with
  | put key data =>
    obtain ⟨c1, e, hcap, hdur, hh, he, hml, hix, hiq, hcase⟩ := h.put_spec key data
    have hz : ZeroDeadlines c → ZeroDeadlines c1 := by
      intro hz q i hi
      have hq := infoOf_lt hi
      rw [hml] at hq
      rcases Nat.lt_succ_iff_lt_or_eq.mp hq with hq1 | hq1
      · rw [hiq q hq1] at hi; exact hz q i hi
      · subst hq1; rw [hix] at hi; rw [← Option.some.inj hi]
    rcases hcase with ⟨_, hwf, _⟩ | ⟨_, hwf, _⟩
    · exact ⟨c1, _, e, hwf, hcap, hdur, hz, hh, he⟩
    · exact ⟨c1, _, e, hwf, hcap, hdur, hz, hh, he⟩
  | get now key =>
    cases hk : mapGet c.dic key with
    | none =>
      exact ⟨c, ps, by simp [step, get_miss c now hk], h, rfl, rfl, id, rfl, rfl⟩
    | some x =>
      obtain ⟨s, t, rfl⟩ := List.append_of_mem (h.key_of_get hk).1
      obtain ⟨n, _, hi⟩ := infoOf_some (h.list.lt_length x (by simp))
      by_cases hD : now < n.deadline
      · obtain ⟨c1, e, hwf, _, hfr, _⟩ := h.get_hit hk hi hD
        exact ⟨c1, _, by simp [step, e], hwf, hfr.1, hfr.2.1, zero_of_cframe hfr,
          hfr.2.2.1, hfr.2.2.2.1⟩
      · obtain ⟨c1, e, hwf, _, hfr, _⟩ := h.get_expired hk hi (not_lt.mp hD)
        exact ⟨c1, _, by simp [step, e], hwf, hfr.1, hfr.2.1, zero_of_cframe hfr,
          hfr.2.2.1, hfr.2.2.2.1⟩
  | del key =>
    cases hk : mapGet c.dic key with
    | none =>
      exact ⟨c, ps, by simp [step, Del_absent c hk], h, rfl, rfl, id, rfl, rfl⟩
    | some x =>
      obtain ⟨s, t, rfl⟩ := List.append_of_mem (h.key_of_get hk).1
      obtain ⟨c1, e, hwf, _, hfr, _⟩ := h.del_present hk
      exact ⟨c1, _, by simp [step, e], hwf, hfr.1, hfr.2.1, zero_of_cframe hfr,
          hfr.2.2.1, hfr.2.2.2.1⟩
  | sweep now =>
    obtain ⟨c1, e, hfr, hcase⟩ := h.run_clean now
    rcases hcase with ⟨_, rfl⟩ | ⟨_, hwf, _⟩
    · exact ⟨c1, ps, by simp [step, e], h, rfl, rfl, id, rfl, rfl⟩
    · exact ⟨c1, _, by simp [step, e], hwf, hfr.1, hfr.2.1, zero_of_cframe hfr,
          hfr.2.2.1, hfr.2.2.2.1⟩

theorem wf_run : ∀ (ops : List (Op V)) (c : LRUCache V) (ps : List Nat), Wf c ps →
    ∃ c1 ps1, run c ops = some c1 ∧ Wf c1 ps1 ∧ c1.cap = c.cap ∧ c1.duration = c.duration ∧
      (ZeroDeadlines c → ZeroDeadlines c1) ∧
      c1.li.head = c.li.head ∧ c1.li.end_ = c.li.end_
  | [], c, ps, h => ⟨c, ps, rfl, h, rfl, rfl, id, rfl, rfl⟩
  | o :: os, c, ps, h => by
    obtain ⟨c1, ps1, e1, hwf1, hc1, hd1, hz1, hh1, he1⟩ := wf_step h o
    obtain ⟨c2, ps2, e2, hwf2, hc2, hd2, hz2, hh2, he2⟩ := wf_run os c1 ps1 hwf1
    exact ⟨c2, ps2, by simp [run, e1, e2], hwf2, hc2.trans hc1, hd2.trans hd1,
      fun hz => hz2 (hz1 hz), hh2.trans hh1, he2.trans he1⟩

theorem zero_init (typ : String) (cap duration : Int) (c0 : LRUCache V)
    (h : initLRUCache typ cap duration = some c0) : ZeroDeadlines c0 := by
  unfold initLRUCache at h
  split at h
  · simp at h
  · simp only [Option.some.injEq] at h
    subst h
    intro q i hi
    have hq := infoOf_lt hi
    simp only [newList, List.length_cons, List.length_nil] at hq
    have : q = 0 ∨ q = 1 := by omega
    rcases this with rfl | rfl <;>
      · simp [infoOf, newList, newListNode] at hi
        rw [← hi]

/-- Every reachable state is well formed, and all its deadlines are zero. -/
theorem reachable_wf {c : LRUCache V} (h : Reachable c) : WellFormed c ∧ ZeroDeadlines c := by
  obtain ⟨cap, duration, c0, ops, h0, hr⟩ := h
  obtain ⟨c1, ps1, e, hwf, _, _, hz, _⟩ := wf_run ops c0 [] (wf_init _ _ _ c0 h0).1
  rw [hr] at e
  cases e
  exact ⟨⟨ps1, hwf⟩, hz (zero_init _ _ _ c0 h0)⟩

theorem sampleCache_reachable : Reachable sampleCache :=
  ⟨5, 1000000000, { cap := 5, duration := 1000000000, li := newList 5, dic := [] },
    [Op.put "a" (some "aa"), Op.put "b" (some "bb")], by decide, by decide⟩

theorem erase_mid {s t : List Nat} {x : Nat} (h : (s ++ x :: t).Nodup) :
    (s ++ x :: t).erase x = s ++ t := by
  have hx : x ∉ s := fun e => not_mem_of_nodup_mid h (List.mem_append_left _ e)
  rw [List.erase_append_right _ hx, List.erase_cons_head]

/-- On a reachable state no `Get` made at a non-negative clock reading finds anything. -/
theorem get_not_found_of_reachable {c : LRUCache V} (hc : Reachable c) (now : Int)
    (hnow : 0 ≤ now) (key : String) : ∃ c1, c.Get now key = some ((none, false), c1) := by
  obtain ⟨⟨ps, h⟩, hz⟩ := reachable_wf hc
  cases hk : mapGet c.dic key with
  | none => exact ⟨c, get_miss c now hk⟩
  | some x =>
    obtain ⟨s, t, rfl⟩ := List.append_of_mem (h.key_of_get hk).1
    obtain ⟨n, _, hi⟩ := infoOf_some (h.list.lt_length x (by simp))
    have h0 : n.deadline = 0 := hz x _ hi
    have hD : n.deadline ≤ now := by rw [h0]; exact hnow
    obtain ⟨c1, e, _⟩ := h.get_expired hk hi hD
    exact ⟨c1, e⟩

theorem wf_runPuts : ∀ (kvs : List (String × Option V)) (c : LRUCache V) (ps : List Nat),
    Wf c ps → c.li.len < c.cap →
    ∃ c1 ps1, runPuts c kvs = some c1 ∧ Wf c1 ps1 ∧ c1.cap = c.cap ∧ c1.li.len < c1.cap
  | [], c, ps, h, hl => ⟨c, ps, rfl, h, rfl, hl⟩
  | kv :: kvs, c, ps, h, hl => by
    obtain ⟨c1, e, hcap, _, _, _, _, _, _, hcase⟩ := h.put_spec kv.1 kv.2
    have hl1 : c1.li.len < c1.cap := by
      rcases hcase with ⟨h1, _, _, h2⟩ | ⟨_, _, h2, _⟩
      · rw [h2, hcap]; exact h1
      · rw [h2, hcap]; exact hl
    have hwf1 : ∃ ps1, Wf c1 ps1 := by
      rcases hcase with ⟨_, hw, _⟩ | ⟨_, hw, _⟩
      · exact ⟨_, hw⟩
      · exact ⟨_, hw⟩
    obtain ⟨ps1, hw1⟩ := hwf1
    obtain ⟨c2, ps2, e2, hw2, hcap2, hl2⟩ := wf_runPuts kvs c1 ps1 hw1 hl1
    exact ⟨c2, ps2, by simp [runPuts, e, e2], hw2, hcap2.trans hcap, hl2⟩

/-! ## The claims -/

/-- C1 (the code departs from it): on a cache of capacity 5 with a TTL of one second,
`Put a` followed at once by `Get a`, at a clock reading of 1.7e18 ns, returns (nil, false)
where the claim says (aa, true): `Put` never sets a deadline, so it stays 0. -/
theorem put_then_get_is_miss :
    ((initLRUCache "lru" 5 1000000000 : Option (LRUCache String)).bind fun c0 =>
      (c0.Put "a" (some "aa")).bind fun c1 =>
        (c1.Get 1700000000000000000 "a").map fun r => r.1) = some (none, false) := by
  decide

/-- C2: a cache created with a positive capacity and fed any sequence of `Put` calls
accepts every call, and after each of them (after the first `n` calls, for every `n`)
`Len() <= Cap()`. -/
theorem capacity_invariant (typ : String) (cap duration : Int) (c0 : LRUCache V)
    (hcap : 0 < cap) (h0 : initLRUCache typ cap duration = some c0)
    (puts : List (String × Option V)) (n : Nat) :
    ∃ c, runPuts c0 (puts.take n) = some c ∧ c.Len ≤ c.Cap := by
  obtain ⟨hwf, hc, _, _⟩ := wf_init typ cap duration c0 h0
  obtain ⟨c1, _, e, _, _, hl⟩ := wf_runPuts (puts.take n) c0 [] hwf (by
    rw [hwf.list.len, hc]; simpa using hcap)
  exact ⟨c1, e, le_of_lt hl⟩

theorem capacity_invariant_witness :
    (0 : Int) < 3 ∧
    initLRUCache "lru" 3 1000000000 =
      some ({ cap := 3, duration := 1000000000, li := newList 3, dic := [] } : LRUCache String) ∧
    ∃ c, runPuts ({ cap := 3, duration := 1000000000, li := newList 3, dic := [] } :
        LRUCache String)
      ([("a", some "aa"), ("b", some "bb"), ("c", some "cc"), ("d", some "dd")].take 4) = some c ∧
      c.Len ≤ c.Cap :=
  ⟨by decide, by decide,
    capacity_invariant "lru" 3 1000000000 _ (by decide) (by decide) _ 4⟩

theorem sampleCache_wf : WellFormed sampleCache := (reachable_wf sampleCache_reachable).1

/-- C3: on a well-formed cache (every reachable state is one), when `key` is indexed to a
node whose deadline is `<= now`, `Get key` at the clock reading `now` returns
(nil, false), whatever the sweeper has done before; and `isTimeout` at the reading `t`
is true exactly for the deadlines `<= t`. -/
theorem expired_get_not_found (c : LRUCache V) (hc : WellFormed c) (key : String)
    (node : Nat) (n : listNode V) (now : Int) (hk : mapGet c.dic key = some node)
    (hn : c.li.mem[node]? = some n) (hD : n.deadline ≤ now) :
    (∃ c1, c.Get now key = some ((none, false), c1)) ∧
      ∀ t D : Int, isTimeout t D = true ↔ D ≤ t := by
  obtain ⟨ps, h⟩ := hc
  obtain ⟨s, t, rfl⟩ := List.append_of_mem (h.key_of_get hk).1
  obtain ⟨c1, e, _⟩ := h.get_expired hk (infoOf_eq hn) hD
  refine ⟨⟨c1, e⟩, fun t D => ?_⟩
  unfold isTimeout
  by_cases htD : t < D
  · simp [htD]
  · simp [htD, not_lt.mp htD]

theorem expired_get_not_found_witness :
    WellFormed sampleCache ∧ mapGet sampleCache.dic "a" = some 2 ∧
    sampleCache.li.mem[2]? = some ⟨0, ⟨"a", some "aa"⟩, some 3, some 1⟩ ∧
    (0 : Int) ≤ 7 ∧
    ((∃ c1, sampleCache.Get 7 "a" = some ((none, false), c1)) ∧
      ∀ t D : Int, isTimeout t D = true ↔ D ≤ t) :=
  ⟨sampleCache_wf, by decide, by decide, by decide,
    expired_get_not_found sampleCache sampleCache_wf "a" 2
      ⟨0, ⟨"a", some "aa"⟩, some 3, some 1⟩ 7 (by decide) (by decide) (by decide)⟩

/-- C4 (the code departs from it): on a cache of capacity 3, after `Put k`, `Put k` the
index has 1 entry and the list 2 nodes; after one more `Put j` the key `k` is not in the
index although a node carrying `k` is linked in the list. -/
theorem index_list_diverge :
    ((initLRUCache "lru" 3 1000000000 : Option (LRUCache String)).bind fun c0 =>
      (runPuts c0 [("k", some "v1"), ("k", some "v2")]).map fun c =>
        (c.dic.length, c.li.nodes.length, c.Len)) = some (1, 2, 2) ∧
    ((initLRUCache "lru" 3 1000000000 : Option (LRUCache String)).bind fun c0 =>
      (runPuts c0 [("k", some "v1"), ("k", some "v2"), ("j", some "w")]).map fun c =>
        (mapGet c.dic "k", c.li.keys)) = some (none, ["j", "k"]) := by
  decide

/-- A hit, node by node, on any well-formed cache (stale duplicates allowed): the node
the index gave for `key` becomes the first node after the head sentinel, the other nodes
follow in their former order, `Len()` is unchanged, and the next `Put` can unlink that
node only if it was the only node of the list. -/
theorem get_hit_promotes (c : LRUCache V) (hc : WellFormed c) (now : Int) (key : String)
    (hfound : (c.Get now key).map (fun r => r.1.2) = some true) :
    ∃ node v c1, c.Get now key = some ((v, true), c1) ∧ mapGet c.dic key = some node ∧
      node ∈ c.li.nodes ∧ nextOf c1.li.mem c1.li.head = some node ∧
      c1.li.nodes = node :: c.li.nodes.erase node ∧ c1.Len = c.Len ∧
      ∀ (key2 : String) (data2 : Option V), ∃ c2, c1.Put key2 data2 = some c2 ∧
        (node ∉ c2.li.nodes → c.li.nodes = [node]) := by
  obtain ⟨ps, h⟩ := hc
  cases hk : mapGet c.dic key with
  | none => rw [get_miss c now hk] at hfound; simp at hfound
  | some x =>
    obtain ⟨s, t, rfl⟩ := List.append_of_mem (h.key_of_get hk).1
    obtain ⟨n, _, hi⟩ := infoOf_some (h.list.lt_length x (by simp))
    by_cases hD : now < n.deadline
    · obtain ⟨c1, e, hwf, _, _, hlen⟩ := h.get_hit hk hi hD
      have hnodes : c.li.nodes = s ++ x :: t := h.list.nodes_eq
      have hnd : (s ++ x :: t).Nodup := (nodup_parts h.list.nodup).2.2.2
      refine ⟨x, n.data.data, c1, e, rfl, by rw [hnodes]; simp, ?_, ?_, hlen, ?_⟩
      · have hc := hwf.list.chain
        rw [List.cons_append, List.cons_append, List.chain'_cons] at hc
        exact hc.1.1
      · rw [hwf.list.nodes_eq, hnodes, erase_mid hnd]
      · intro key2 data2
        obtain ⟨c2, e2, _, _, _, _, _, _, _, hcase⟩ := hwf.put_spec key2 data2
        refine ⟨c2, e2, fun hnot => ?_⟩
        rcases hcase with ⟨_, hw2, _⟩ | ⟨_, hw2, _⟩
        · rw [hw2.list.nodes_eq] at hnot
          exact absurd (by simp) hnot
        · rw [hw2.list.nodes_eq] at hnot
          rcases List.eq_nil_or_concat (s ++ t) with h0 | ⟨r, y, hr⟩
          · obtain ⟨rfl, rfl⟩ := List.append_eq_nil.mp h0
            rw [hnodes]; rfl
          · rw [hr, List.concat_eq_append, ← List.cons_append, ← List.cons_append,
              List.dropLast_concat] at hnot
            exact absurd (by simp) hnot
    · obtain ⟨c1, e, _⟩ := h.get_expired hk hi (not_lt.mp hD)
      rw [e] at hfound; simp at hfound

/-- C6 (the code departs from it): on a cache of capacity 3, after `Put a`, `Put b`,
`Put c`, `Put d` the list holds d, c only and `Len()` is 2: both a and b have been
evicted, where the claim says b, c, d and `Len() == 3`. -/
theorem capacity_three_holds_two :
    ((initLRUCache "lru" 3 1000000000 : Option (LRUCache String)).bind fun c0 =>
      (runPuts c0 [("a", some "aa"), ("b", some "bb"), ("c", some "cc"), ("d", some "dd")]).map
        fun c => (c.li.keys, c.Len, mapGet c.dic "b")) = some (["d", "c"], 2, none) := by
  decide

/-- C7 (the code departs from it): on a cache of capacity 5 and TTL one second, after
`Put a`, `Put b`, `Get a`, `Put c`, `Put d`, `Put e`, `Put f` the key a is neither
indexed nor linked (the list holds f, e, d, c), where the claim says a is still
present.  With the `Get` at a clock reading of 1.7e18 ns it misses and deletes a; with
the `Get` at a reading below the deadline 0 it hits, and a is evicted by `Put f`. -/
theorem get_does_not_protect :
    ((initLRUCache "lru" 5 1000000000 : Option (LRUCache String)).bind fun c0 =>
      (runPuts c0 [("a", some "aa"), ("b", some "bb")]).bind fun c1 =>
        (c1.Get 1700000000000000000 "a").bind fun r =>
          (runPuts r.2 [("c", some "cc"), ("d", some "dd"), ("e", some "ee"),
            ("f", some "ff")]).map fun c => (r.1, mapGet c.dic "a", c.li.keys)) =
      some ((none, false), none, ["f", "e", "d", "c"]) ∧
    ((initLRUCache "lru" 5 1000000000 : Option (LRUCache String)).bind fun c0 =>
      (runPuts c0 [("a", some "aa"), ("b", some "bb")]).bind fun c1 =>
        (c1.Get (-1) "a").bind fun r =>
          (runPuts r.2 [("c", some "cc"), ("d", some "dd"), ("e", some "ee"),
            ("f", some "ff")]).map fun c => (r.1, mapGet c.dic "a", c.li.keys)) =
      some ((some "aa", true), none, ["f", "e", "d", "c"]) := by
  decide

/-- C8 (the code departs from it): on a cold cache of capacity 2 and TTL one second, two
calls in a row of the function returned by `RegistGetFunc`, with the key a and a fetch
function returning key + "!", both return a! but call the fetch function twice, where
the claim says once. -/
theorem read_through_fetches_twice :
    ((initLRUCache "lru" 2 1000000000 : Option (LRUCache String)).bind fun c0 =>
      (c0.RegistGetFunc (fun k => some (k ++ "!")) [] 1700000000000000000 "a").bind fun r1 =>
        (r1.2.1.RegistGetFunc (fun k => some (k ++ "!")) r1.2.2 1700000000000000000 "a").map
          fun r2 => (r1.1, r1.2.2, r2.1, r2.2.2)) =
      some (some "a!", ["a"], some "a!", ["a", "a"]) := by
  decide

/-- C9: on every reachable state `Del key` succeeds, and a second `Del key` leaves the
state reached by the first exactly as it is. -/
theorem del_idempotent (c : LRUCache V) (hc : Reachable c) (key : String) :
    ∃ c1, c.Del key = some c1 ∧ c1.Del key = some c1 := by
  obtain ⟨⟨ps, h⟩, _⟩ := reachable_wf hc
  cases hk : mapGet c.dic key with
  | none => exact ⟨c, Del_absent c hk, Del_absent c hk⟩
  | some x =>
    obtain ⟨s, t, rfl⟩ := List.append_of_mem (h.key_of_get hk).1
    obtain ⟨c1, e, _, hdic, _⟩ := h.del_present hk
    exact ⟨c1, e, Del_absent c1 (by rw [hdic]; exact mapGet_mapDelete_self _ _)⟩

theorem del_idempotent_witness :
    Reachable sampleCache ∧
    ∃ c1, sampleCache.Del "a" = some c1 ∧ c1.Del "a" = some c1 :=
  ⟨sampleCache_reachable, del_idempotent sampleCache sampleCache_reachable "a"⟩

/-- C10: when `key` is not in the index, `Del key` returns normally and the state is the
one before: list, `Len()`, index, `Cap()` and `Duration()` are unchanged. -/
theorem del_absent_noop (c : LRUCache V) (key : String) (hk : mapGet c.dic key = none) :
    ∃ c1, c.Del key = some c1 ∧ c1 = c ∧ c1.li = c.li ∧ c1.Len = c.Len ∧ c1.dic = c.dic ∧
      c1.Cap = c.Cap ∧ c1.Duration = c.Duration :=
  ⟨c, Del_absent c hk, rfl, rfl, rfl, rfl, rfl, rfl⟩

theorem del_absent_noop_witness :
    mapGet sampleCache.dic "z" = none ∧
    ∃ c1, sampleCache.Del "z" = some c1 ∧ c1 = sampleCache ∧ c1.li = sampleCache.li ∧
      c1.Len = sampleCache.Len ∧ c1.dic = sampleCache.dic ∧ c1.Cap = sampleCache.Cap ∧
      c1.Duration = sampleCache.Duration :=
  ⟨by decide, del_absent_noop sampleCache "z" (by decide)⟩

/-! ## The wrappers and the deadline -/

theorem mapGet_mapDelete_ne : ∀ (d : List (String × Nat)) {k k1 : String}, k1 ≠ k →
    mapGet (mapDelete d k) k1 = mapGet d k1
  | [], _, _, _ => rfl
  | (k2, n2) :: t, k, k1, h => by
    have ih := mapGet_mapDelete_ne t h
    unfold mapDelete at ih ⊢
    by_cases h2 : k2 = k
    · have h3 : k2 ≠ k1 := fun e => h (e ▸ h2)
      simp [List.filter_cons, h2, mapGet, h3] at ih ⊢
      rw [ih]
      have : ¬ k = k1 := fun e => h e.symm
      simp [this]
    · simp [List.filter_cons, h2, mapGet] at ih ⊢
      rw [ih]

/-- On a well-formed cache whose deadlines are all 0, no `Get` made at a non-negative
clock reading finds anything. -/
theorem get_not_found_of_zero {c : LRUCache V} {ps : List Nat} (h : Wf c ps)
    (hz : ZeroDeadlines c) (now : Int) (hnow : 0 ≤ now) (key : String) :
    ∃ c1, c.Get now key = some ((none, false), c1) := by
  cases hk : mapGet c.dic key with
  | none => exact ⟨c, get_miss c now hk⟩
  | some x =>
    obtain ⟨s, t, rfl⟩ := List.append_of_mem (h.key_of_get hk).1
    obtain ⟨n, _, hi⟩ := infoOf_some (h.list.lt_length x (by simp))
    have h0 : n.deadline = 0 := hz x _ hi
    have hD : n.deadline ≤ now := by rw [h0]; exact hnow
    obtain ⟨c1, e, _⟩ := h.get_expired hk hi hD
    exact ⟨c1, e⟩

/-- What `Del` does on a well-formed cache, whether the key is indexed or not. -/
theorem Wf.del_any {c : LRUCache V} {ps : List Nat} (h : Wf c ps) (key : String) :
    ∃ c1, c.Del key = some c1 ∧ c1.dic = mapDelete c.dic key ∧ CFrame c c1 ∧
      WellFormed c1 := by
  cases hk : mapGet c.dic key with
  | none =>
    exact ⟨c, Del_absent c hk, (mapDelete_of_none hk).symm, CFrame.refl_cframe c, ps, h⟩
  | some x =>
    obtain ⟨s, t, rfl⟩ := List.append_of_mem (h.key_of_get hk).1
    obtain ⟨c1, e, hwf, hdic, hfr, _⟩ := h.del_present hk
    exact ⟨c1, e, hdic, hfr, _, hwf⟩

/-- C11: on a well-formed cache the functions returned by `RegistPutFunc` and
`RegistDelFunc` apply the external function once, to their own arguments and to the
cache as it was before the call, store nothing (no node is allocated, no payload changes,
the index only loses the key), and leave the key out of the index, so that a `Get` of it
returns (nil, false). -/
theorem write_invalidate {W : Type} (c : LRUCache V) (hc : WellFormed c)
    (putNoCache : LRUCache V → String → Option V → W → W)
    (delNoCache : LRUCache V → String → W → W) (w : W) (key : String) (value : Option V)
    (now : Int) :
    (∃ c1, c.RegistPutFunc putNoCache w key value = some (c1, putNoCache c key value w) ∧
      c1.dic = mapDelete c.dic key ∧ mapGet c1.dic key = none ∧
      c1.li.mem.length = c.li.mem.length ∧ (∀ q, infoOf c1.li.mem q = infoOf c.li.mem q) ∧
      c1.Get now key = some ((none, false), c1)) ∧
    (∃ c1, c.RegistDelFunc delNoCache w key = some (c1, delNoCache c key w) ∧
      c1.dic = mapDelete c.dic key ∧ mapGet c1.dic key = none ∧
      c1.li.mem.length = c.li.mem.length ∧ (∀ q, infoOf c1.li.mem q = infoOf c.li.mem q) ∧
      c1.Get now key = some ((none, false), c1)) := by
  obtain ⟨ps, h⟩ := hc
  obtain ⟨c1, e, hdic, hfr, _⟩ := h.del_any key
  have hnone : mapGet c1.dic key = none := by rw [hdic]; exact mapGet_mapDelete_self _ _
  exact ⟨⟨c1, by simp [LRUCache.RegistPutFunc, e], hdic, hnone, hfr.2.2.2.2.2.1,
      hfr.2.2.2.2.2.2, get_miss c1 now hnone⟩,
    ⟨c1, by simp [LRUCache.RegistDelFunc, e], hdic, hnone, hfr.2.2.2.2.2.1,
      hfr.2.2.2.2.2.2, get_miss c1 now hnone⟩⟩

theorem write_invalidate_witness :
    WellFormed sampleCache ∧
    (∃ c1, sampleCache.RegistPutFunc (fun _ k v w => (k, v) :: w) [] "a" (some "new") =
        some (c1, [("a", some "new")]) ∧
      c1.dic = mapDelete sampleCache.dic "a" ∧ mapGet c1.dic "a" = none ∧
      c1.li.mem.length = sampleCache.li.mem.length ∧
      (∀ q, infoOf c1.li.mem q = infoOf sampleCache.li.mem q) ∧
      c1.Get 7 "a" = some ((none, false), c1)) ∧
    (∃ c1, sampleCache.RegistDelFunc (fun _ k w => (k, (none : Option String)) :: w) [] "a" =
        some (c1, [("a", (none : Option String))]) ∧
      c1.dic = mapDelete sampleCache.dic "a" ∧ mapGet c1.dic "a" = none ∧
      c1.li.mem.length = sampleCache.li.mem.length ∧
      (∀ q, infoOf c1.li.mem q = infoOf sampleCache.li.mem q) ∧
      c1.Get 7 "a" = some ((none, false), c1)) :=
  ⟨sampleCache_wf,
    write_invalidate sampleCache sampleCache_wf (fun _ k v w => (k, v) :: w)
      (fun _ k w => (k, (none : Option String)) :: w) [] "a" (some "new") 7⟩

theorem wf_sweeps {c : LRUCache V} {ps : List Nat} (h : Wf c ps) (hz : ZeroDeadlines c)
    (ticks : List Int) :
    ∃ c1 ps1, run c (ticks.map Op.sweep) = some c1 ∧ Wf c1 ps1 ∧ ZeroDeadlines c1 := by
  obtain ⟨c1, ps1, e, hwf, _, _, hz1, _⟩ := wf_run (ticks.map Op.sweep) c ps h
  exact ⟨c1, ps1, e, hwf, hz1 hz⟩

/-- C12: on a reachable cache with TTL d > 0, after a `Put` of `key` at a clock reading
`t >= 0`, and whatever ticks the sweeper makes in between, a `Get` of `key` at any
reading `t1 >= t + d + d/2` returns (nil, false). -/
theorem no_entry_outlives_ttl (c : LRUCache V) (hc : Reachable c) (key : String)
    (data : Option V) (t t1 : Int) (ht : 0 ≤ t) (hd : 0 < c.Duration)
    (ht1 : t + c.Duration + Int.tdiv c.Duration 2 ≤ t1) (ticks : List Int) :
    ∃ c1 c2 c3, c.Put key data = some c1 ∧ run c1 (ticks.map Op.sweep) = some c2 ∧
      c2.Get t1 key = some ((none, false), c3) := by
  obtain ⟨⟨ps, h⟩, hz⟩ := reachable_wf hc
  obtain ⟨c1, ps1, e1, hwf1, _, _, hz1, _⟩ := wf_step h (Op.put key data)
  obtain ⟨c2, ps2, e2, hwf2, hz2⟩ := wf_sweeps hwf1 (hz1 hz) ticks
  have h2 : 0 ≤ Int.tdiv c.Duration 2 := Int.tdiv_nonneg (le_of_lt hd) (by decide)
  obtain ⟨c3, e3⟩ := get_not_found_of_zero hwf2 hz2 t1 (by omega) key
  exact ⟨c1, c2, c3, e1, e2, e3⟩

theorem no_entry_outlives_ttl_witness :
    Reachable sampleCache ∧ (0 : Int) ≤ 1700000000000000000 ∧ 0 < sampleCache.Duration ∧
    (1700000000000000000 + sampleCache.Duration + Int.tdiv sampleCache.Duration 2 ≤
      (1700000001500000000 : Int)) ∧
    ∃ c1 c2 c3, sampleCache.Put "c" (some "cc") = some c1 ∧
      run c1 ([1700000000500000000, 1700000001000000000, 1700000001500000000].map Op.sweep) =
        some c2 ∧
      c2.Get 1700000001500000000 "c" = some ((none, false), c3) :=
  ⟨sampleCache_reachable, by decide, by decide, by decide,
    no_entry_outlives_ttl sampleCache sampleCache_reachable "c" (some "cc")
      1700000000000000000 1700000001500000000 (by decide) (by decide) (by decide) _⟩

theorem wrap64_of_range {x : Int} (h1 : 0 ≤ x) (h2 : x < 9223372036854775808) :
    wrap64 x = x := by
  unfold wrap64; omega

/-- C13: for a TTL d >= 0 and clock readings n1, n2 >= 0 such that n2 + d + (d/500)*(n1 % 100)
fits an `int64`, `getEnding` returns that sum; the jitter j = deadline - n2 - d satisfies
0 <= j <= 99 * (d/500) <= d/5, and j = 0 when d < 500. -/
theorem getEnding_jitter (c : LRUCache V) (n1 n2 : Int) (hd : 0 ≤ c.duration)
    (hn1 : 0 ≤ n1) (hn2 : 0 ≤ n2)
    (hfit : n2 + c.duration + c.duration / 500 * (n1 % 100) < 9223372036854775808) :
    c.getEnding n1 n2 = n2 + c.duration + c.duration / 500 * (n1 % 100) ∧
      0 ≤ c.getEnding n1 n2 - n2 - c.duration ∧
      c.getEnding n1 n2 - n2 - c.duration ≤ 99 * (c.duration / 500) ∧
      99 * (c.duration / 500) ≤ c.duration / 5 ∧
      (c.duration < 500 → c.getEnding n1 n2 - n2 - c.duration = 0) := by
  have hq : 0 ≤ c.duration / 500 := Int.ediv_nonneg hd (by decide)
  have hr0 : 0 ≤ n1 % 100 := Int.emod_nonneg _ (by decide)
  have hr1 : n1 % 100 ≤ 99 := by omega
  have hj0 : 0 ≤ c.duration / 500 * (n1 % 100) := mul_nonneg hq hr0
  have hj1 : c.duration / 500 * (n1 % 100) ≤ c.duration / 500 * 99 :=
    mul_le_mul_of_nonneg_left hr1 hq
  have hval : c.getEnding n1 n2 = n2 + c.duration + c.duration / 500 * (n1 % 100) := by
    unfold LRUCache.getEnding
    simp only [Int.tdiv_eq_ediv hd (by decide : (0 : Int) ≤ 500),
      Int.tmod_eq_emod hn1 (by decide : (0 : Int) ≤ 100)]
    rw [wrap64_of_range hj0 (by omega),
      wrap64_of_range (x := c.duration + c.duration / 500 * (n1 % 100)) (by omega) (by omega),
      wrap64_of_range (by omega) (by omega)]
    omega
  rw [hval]
  refine ⟨rfl, by omega, by omega, by omega, fun h => ?_⟩
  have : c.duration / 500 = 0 := by omega
  rw [this]; simp

theorem getEnding_jitter_witness :
    (0 : Int) ≤ sampleCache.duration ∧ (0 : Int) ≤ 1700000000000000037 ∧
    (0 : Int) ≤ 1700000000000000050 ∧
    (1700000000000000050 + sampleCache.duration +
      sampleCache.duration / 500 * (1700000000000000037 % 100) < (9223372036854775808 : Int)) ∧
    (sampleCache.getEnding 1700000000000000037 1700000000000000050 =
        1700000000000000050 + sampleCache.duration +
          sampleCache.duration / 500 * (1700000000000000037 % 100) ∧
      0 ≤ sampleCache.getEnding 1700000000000000037 1700000000000000050 -
        1700000000000000050 - sampleCache.duration ∧
      sampleCache.getEnding 1700000000000000037 1700000000000000050 -
        1700000000000000050 - sampleCache.duration ≤ 99 * (sampleCache.duration / 500) ∧
      99 * (sampleCache.duration / 500) ≤ sampleCache.duration / 5 ∧
      (sampleCache.duration < 500 →
        sampleCache.getEnding 1700000000000000037 1700000000000000050 -
          1700000000000000050 - sampleCache.duration = 0)) :=
  ⟨by decide, by decide, by decide, by decide,
    getEnding_jitter sampleCache 1700000000000000037 1700000000000000050 (by decide)
      (by decide) (by decide) (by decide)⟩

/-- C14 (the code departs from it): on a cache of capacity 5 and TTL one second, after
`Put a` the only linked node has the deadline 0, where the claim says at least t + d;
for the clock reading 1700000000000000037 `getEnding` would give 1700000001074000037. -/
theorem put_leaves_deadline_zero :
    ((initLRUCache "lru" 5 1000000000 : Option (LRUCache String)).bind fun c0 =>
      (c0.Put "a" (some "aa")).map fun c1 =>
        (c1.li.nodes.map fun p => (c1.li.mem[p]?).map fun n => (n.data.key, n.deadline),
          c0.getEnding 1700000000000000037 1700000000000000037)) =
      some ([some ("a", 0)], 1700000001074000037) := by
  decide

/-! ## Deleting and sweeping -/

/-- C15: on a reachable state with `key` indexed to `node`, `Del key` succeeds; afterwards
`node` is not reachable from the head, `key` is not in the index, `Len()` is one less,
the other nodes are linked in their former order with their payloads, and the other
index entries are as before. -/
theorem del_present_removes (c : LRUCache V) (hc : Reachable c) (key : String) (node : Nat)
    (hk : mapGet c.dic key = some node) :
    ∃ c1, c.Del key = some c1 ∧ node ∈ c.li.nodes ∧ node ∉ c1.li.nodes ∧
      mapGet c1.dic key = none ∧ c1.Len = c.Len - 1 ∧
      c1.li.nodes = c.li.nodes.erase node ∧
      (∀ q, infoOf c1.li.mem q = infoOf c.li.mem q) ∧
      c1.dic = c.dic.filter (fun e => decide (e.1 ≠ key)) ∧
      ∀ k, k ≠ key → mapGet c1.dic k = mapGet c.dic k := by
  obtain ⟨⟨ps, h⟩, _⟩ := reachable_wf hc
  obtain ⟨s, t, rfl⟩ := List.append_of_mem (h.key_of_get hk).1
  obtain ⟨c1, e, hwf, hdic, hfr, hlen⟩ := h.del_present hk
  have hnd : (s ++ node :: t).Nodup := (nodup_parts h.list.nodup).2.2.2
  refine ⟨c1, e, by rw [h.list.nodes_eq]; simp, ?_, ?_, hlen, ?_, hfr.2.2.2.2.2.2, hdic, ?_⟩
  · rw [hwf.list.nodes_eq]; exact not_mem_of_nodup_mid hnd
  · rw [hdic]; exact mapGet_mapDelete_self _ _
  · rw [hwf.list.nodes_eq, h.list.nodes_eq, erase_mid hnd]
  · intro k hne; rw [hdic]; exact mapGet_mapDelete_ne _ hne

theorem del_present_removes_witness :
    Reachable sampleCache ∧ mapGet sampleCache.dic "a" = some 2 ∧
    ∃ c1, sampleCache.Del "a" = some c1 ∧ 2 ∈ sampleCache.li.nodes ∧ 2 ∉ c1.li.nodes ∧
      mapGet c1.dic "a" = none ∧ c1.Len = sampleCache.Len - 1 ∧
      c1.li.nodes = sampleCache.li.nodes.erase 2 ∧
      (∀ q, infoOf c1.li.mem q = infoOf sampleCache.li.mem q) ∧
      c1.dic = sampleCache.dic.filter (fun e => decide (e.1 ≠ "a")) ∧
      ∀ k, k ≠ "a" → mapGet c1.dic k = mapGet sampleCache.dic k :=
  ⟨sampleCache_reachable, by decide,
    del_present_removes sampleCache sampleCache_reachable "a" 2 (by decide)⟩

/-- The sweep on the sample state x, y, z with the deadlines 0, 100, 0, at the clock
reading 50: only z is removed, the expired x in front of y stays. -/
theorem mixedCache_sweep :
    (mixedCache.cleanTimeoutNode 50).map (fun r => (r.1.li.keys, r.1.dic, r.2)) =
      some (["x", "y"], [("x", 2), ("y", 3)], 1) := by
  decide

/-- A tick of the sweeper does nothing when `Len() < Cap() / 2`, the division truncating. -/
theorem runClean_of_lt_half (c : LRUCache V) (now : Int) (h : c.Len < Int.tdiv c.Cap 2) :
    c.runClean now = some c := by
  simp [LRUCache.runClean, h]

/-- C17 (the code departs from it): on a cache of capacity 5 holding b and a, where
2 * Len() < Cap(), a tick of the sweeper at the clock reading 1.7e18 ns runs the sweep and
empties the list and the index, where the claim says it leaves both unchanged: the test is
`Len() < Cap() / 2` with a truncating division, and 2 < 2 fails. -/
theorem sweep_runs_below_half :
    ((initLRUCache "lru" 5 1000000000 : Option (LRUCache String)).bind fun c0 =>
      (runPuts c0 [("a", some "aa"), ("b", some "bb")]).bind fun c1 =>
        (c1.runClean 1700000000000000000).map fun c2 =>
          (decide (2 * c1.Len < c1.Cap), c1.li.keys, c2.li.keys, c2.dic)) =
      some (true, ["b", "a"], [], []) := by
  decide

/-! ## The shape of the reachable states -/

theorem walk_reaches {m : List (listNode V)} {e : Nat} : ∀ (ps : List Nat) (a fuel : Nat),
    List.Chain' (Adj m) (a :: ps ++ [e]) → e ∉ ps → ps.length + 1 ≤ fuel →
    reachesEnd m e fuel (nextOf m a) = true
  | [], a, fuel, hc, _, hf => by
    have h : nextOf m a = some e := by
      simp only [List.cons_append, List.nil_append, List.chain'_cons] at hc
      exact hc.1.1
    obtain ⟨k, rfl⟩ : ∃ k, fuel = k + 1 := ⟨fuel - 1, by simp at hf; omega⟩
    simp [h, reachesEnd]
  | p :: t, a, fuel, hc, he, hf => by
    simp only [List.cons_append, List.chain'_cons] at hc
    obtain ⟨k, rfl⟩ : ∃ k, fuel = k + 1 := ⟨fuel - 1, by simp at hf; omega⟩
    have hpe : p ≠ e := fun h => he (by simp [h])
    rw [hc.1.1]
    simp only [reachesEnd, hpe, if_false]
    exact walk_reaches t p k (by simpa using hc.2) (fun h => he (List.mem_cons_of_mem _ h))
      (by simp at hf; omega)

/-- Every linked node has a predecessor and a successor that point back to it. -/
theorem ListWf.neighbours {l : list V} {s t : List Nat} {x : Nat}
    (h : ListWf l (s ++ x :: t)) :
    ∃ p q, Adj l.mem p x ∧ Adj l.mem x q := by
  obtain ⟨A, p, hAp⟩ : ∃ A p, l.head :: s = A ++ [p] :=
    ⟨(l.head :: s).dropLast, (l.head :: s).getLast (List.cons_ne_nil _ _),
      (List.dropLast_append_getLast _).symm⟩
  obtain ⟨q, B, hqB⟩ : ∃ q B, t ++ [l.end_] = q :: B := by
    cases t with
    | nil => exact ⟨_, _, rfl⟩
    | cons a t => exact ⟨a, t ++ [l.end_], rfl⟩
  have hcs : l.head :: (s ++ x :: t) ++ [l.end_] = A ++ p :: x :: q :: B := by
    rw [← List.cons_append, hAp]; simp [hqB]
  have hc := h.chain
  rw [hcs] at hc
  have hc2 := (List.chain'_split.mp hc).2
  rw [List.chain'_cons, List.chain'_cons] at hc2
  exact ⟨p, q, hc2.1, hc2.2.1⟩

theorem reachable_sentinels {c : LRUCache V} (h : Reachable c) :
    c.li.head = 0 ∧ c.li.end_ = 1 := by
  obtain ⟨cap, duration, c0, ops, h0, hr⟩ := h
  obtain ⟨c1, ps1, e, _, _, _, _, hh, he⟩ := wf_run ops c0 [] (wf_init _ _ _ c0 h0).1
  rw [hr] at e
  cases e
  unfold initLRUCache at h0
  split at h0
  · simp at h0
  · simp only [Option.some.injEq] at h0
    subst h0
    exact ⟨hh, he⟩

/-- C18: in every reachable state `li.len` is the number of nodes between the sentinels,
the forward walk from the head arrives at the end sentinel, every linked node `n` has
`n.pre.next == n` and `n.next.pre == n`, and the sentinels are the two nodes allocated by
`newList`, neither of them among the linked nodes. -/
theorem tracked_length_is_real (c : LRUCache V) (hc : Reachable c) :
    c.li.len = (c.li.nodes.length : Int) ∧
    reachesEnd c.li.mem c.li.end_ c.li.mem.length (nextOf c.li.mem c.li.head) = true ∧
    (∀ n ∈ c.li.nodes, ∃ p q, preOf c.li.mem n = some p ∧ nextOf c.li.mem p = some n ∧
      nextOf c.li.mem n = some q ∧ preOf c.li.mem q = some n) ∧
    c.li.head = 0 ∧ c.li.end_ = 1 ∧ c.li.head ∉ c.li.nodes ∧ c.li.end_ ∉ c.li.nodes := by
  obtain ⟨⟨ps, h⟩, _⟩ := reachable_wf hc
  obtain ⟨hh, he⟩ := reachable_sentinels hc
  have hparts := nodup_parts h.list.nodup
  rw [h.list.nodes_eq]
  refine ⟨h.list.len, ?_, ?_, hh, he, hparts.1, hparts.2.2.1⟩
  · exact walk_reaches ps c.li.head c.li.mem.length h.list.chain hparts.2.2.1
      (by have := h.list.room; omega)
  · intro n hn
    obtain ⟨s, t, rfl⟩ := List.append_of_mem hn
    obtain ⟨p, q, hp, hq⟩ := h.list.neighbours
    exact ⟨p, q, hp.2, hp.1, hq.1, hq.2⟩

theorem tracked_length_is_real_witness :
    Reachable sampleCache ∧
    (sampleCache.li.len = (sampleCache.li.nodes.length : Int) ∧
    reachesEnd sampleCache.li.mem sampleCache.li.end_ sampleCache.li.mem.length
      (nextOf sampleCache.li.mem sampleCache.li.head) = true ∧
    (∀ n ∈ sampleCache.li.nodes, ∃ p q, preOf sampleCache.li.mem n = some p ∧
      nextOf sampleCache.li.mem p = some n ∧
      nextOf sampleCache.li.mem n = some q ∧ preOf sampleCache.li.mem q = some n) ∧
    sampleCache.li.head = 0 ∧ sampleCache.li.end_ = 1 ∧
    sampleCache.li.head ∉ sampleCache.li.nodes ∧ sampleCache.li.end_ ∉ sampleCache.li.nodes) :=
  ⟨sampleCache_reachable, tracked_length_is_real sampleCache sampleCache_reachable⟩

theorem mapDelete_cons (k1 : String) (n1 : Nat) (t : List (String × Nat)) (k : String) :
    mapDelete ((k1, n1) :: t) k =
      if k1 = k then mapDelete t k else (k1, n1) :: mapDelete t k := by
  unfold mapDelete
  by_cases hk : k1 = k <;> simp [List.filter_cons, hk]

theorem length_mapDelete : ∀ {d : List (String × Nat)} {k : String} {n : Nat},
    (d.map Prod.fst).Nodup → mapGet d k = some n → (mapDelete d k).length + 1 = d.length
  | [], _, _, _, h => by simp [mapGet] at h
  | (k1, n1) :: t, k, n, hnd, h => by
    rw [List.map_cons, List.nodup_cons] at hnd
    rw [mapDelete_cons]
    by_cases hk : k1 = k
    · subst hk
      have hnone : mapGet t k1 = none := mapGet_eq_none.mpr hnd.1
      rw [if_pos rfl, mapDelete_of_none hnone, List.length_cons]
    · have h2 : mapGet t k = some n := by
        unfold mapGet at h; simpa [hk] using h
      rw [if_neg hk, List.length_cons, List.length_cons, length_mapDelete hnd.2 h2]

/-- C19: on a reachable state with `key` indexed to `old` and `Len() + 1 < Cap()`, `Put`
of `key` succeeds, links at the front a node that was not allocated before and carries
`key` and the new value, leaves `old` linked, adds 1 to `Len()`, keeps the number of
index entries and makes the index map `key` to the new node. -/
theorem put_present_key_duplicates (c : LRUCache V) (hc : Reachable c) (key : String)
    (data : Option V) (old : Nat) (hk : mapGet c.dic key = some old)
    (hlen : c.Len + 1 < c.Cap) :
    ∃ c1, c.Put key data = some c1 ∧ c.li.mem[c.li.mem.length]? = none ∧
      c1.li.nodes = c.li.mem.length :: c.li.nodes ∧
      infoOf c1.li.mem c.li.mem.length = some (0, { key := key, data := data }) ∧
      old ∈ c.li.nodes ∧ old ∈ c1.li.nodes ∧ old ≠ c.li.mem.length ∧
      keyOf c1.li.mem old = some key ∧
      c1.Len = c.Len + 1 ∧ c1.dic.length = c.dic.length ∧
      mapGet c1.dic key = some c.li.mem.length := by
  obtain ⟨⟨ps, h⟩, _⟩ := reachable_wf hc
  obtain ⟨c1, e, _, _, _, _, _, hix, hiq, hcase⟩ := h.put_spec key data
  obtain ⟨hold, hkey⟩ := h.key_of_get hk
  have holdlt : old < c.li.mem.length := h.list.lt_length old (by simp [hold])
  rcases hcase with ⟨_, hwf, hdic, hl⟩ | ⟨hnot, _⟩
  · refine ⟨c1, e, by simp, ?_, hix, by rw [h.list.nodes_eq]; exact hold, ?_,
      Nat.ne_of_lt holdlt, ?_, hl, ?_, ?_⟩
    · rw [hwf.list.nodes_eq, h.list.nodes_eq]
    · rw [hwf.list.nodes_eq]; exact List.mem_cons_of_mem _ hold
    · simp only [keyOf, hiq old holdlt]; exact hkey
    · rw [hdic]; simp only [mapSet, List.length_cons]
      exact length_mapDelete h.dic_nodup hk
    · rw [hdic]; exact mapGet_mapSet_self _ _ _
  · exact absurd hlen hnot

theorem put_present_key_duplicates_witness :
    Reachable sampleCache ∧ mapGet sampleCache.dic "a" = some 2 ∧
    sampleCache.Len + 1 < sampleCache.Cap ∧
    ∃ c1, sampleCache.Put "a" (some "new") = some c1 ∧
      sampleCache.li.mem[sampleCache.li.mem.length]? = none ∧
      c1.li.nodes = sampleCache.li.mem.length :: sampleCache.li.nodes ∧
      infoOf c1.li.mem sampleCache.li.mem.length =
        some (0, { key := "a", data := some "new" }) ∧
      2 ∈ sampleCache.li.nodes ∧ 2 ∈ c1.li.nodes ∧ 2 ≠ sampleCache.li.mem.length ∧
      keyOf c1.li.mem 2 = some "a" ∧
      c1.Len = sampleCache.Len + 1 ∧ c1.dic.length = sampleCache.dic.length ∧
      mapGet c1.dic "a" = some sampleCache.li.mem.length :=
  ⟨sampleCache_reachable, by decide, by decide,
    put_present_key_duplicates sampleCache sampleCache_reachable "a" (some "new") 2
      (by decide) (by decide)⟩

theorem linked_of_mem {l : list V} {ps : List Nat} (h : ListWf l ps) {x : Nat} (hx : x ∈ ps) :
    linkedNode l x = true := by
  have hparts := nodup_parts h.nodup
  have h1 : x ≠ l.head := by rintro rfl; exact hparts.1 hx
  have h2 : x ≠ l.end_ := by rintro rfl; exact hparts.2.2.1 hx
  simp [linkedNode, h.nodes_eq, hx, h1, h2]

theorem delG_eq {c : LRUCache V} {ps : List Nat} (h : Wf c ps) {x : Nat} (hx : x ∈ ps) :
    c.delG x = c.del x := by
  simp [LRUCache.delG, linked_of_mem h.list hx]

/-- The guards of the loop of `cleanTimeoutNode` never fail on a well-formed cache. -/
theorem cleanLoopG_eq (now : Int) (s : List Nat) : ∀ (t : List Nat) (c : LRUCache V)
    (fuel : Nat) (cleanSum : Int),
    Wf c (s ++ t) → (∀ p ∈ t, expiredAt c.li.mem now p = true) →
    (∀ y, s.getLast? = some y → expiredAt c.li.mem now y = false) →
    cleanLoopG fuel c now (c.li.head :: (s ++ t)).getLast? cleanSum =
      cleanLoop fuel c now (c.li.head :: (s ++ t)).getLast? cleanSum := by
  intro t
  induction t using List.reverseRecOn with
  | nil =>
    intro c fuel cleanSum hwf _ hs
    rw [List.append_nil] at hwf ⊢
    cases fuel with
    | zero => simp [cleanLoopG, cleanLoop]
    | succ k =>
      rcases List.eq_nil_or_concat s with rfl | ⟨s1, y, hs1⟩
      · simp [cleanLoopG, cleanLoop]
      · rw [List.concat_eq_append] at hs1
        subst hs1
        have hy : y ≠ c.li.head := by
          rintro rfl
          exact (nodup_parts hwf.list.nodup).1 (by simp)
        have hyl : y < c.li.mem.length := hwf.list.lt_length y (by simp)
        have hexp := hs y (List.getLast?_concat _)
        rw [← isTimeout_of_expiredAt (List.getElem?_eq_getElem hyl)] at hexp
        have hl : (c.li.head :: (s1 ++ [y])).getLast? = some y := by
          rw [← List.cons_append, List.getLast?_concat]
        rw [hl]
        simp [cleanLoopG, cleanLoop, hy, List.getElem?_eq_getElem hyl, hexp]
  | append_singleton t y ih =>
    intro c fuel cleanSum hwf ht hs
    cases fuel with
    | zero => simp [cleanLoopG, cleanLoop]
    | succ k =>
      have hwf1 : Wf c ((s ++ t) ++ y :: []) := by rw [List.append_assoc]; exact hwf
      have hy : y ≠ c.li.head := by
        rintro rfl
        exact (nodup_parts hwf1.list.nodup).1 (by simp)
      have hyl : y < c.li.mem.length := hwf1.list.lt_length y (by simp)
      have hexp := ht y (by simp)
      rw [← isTimeout_of_expiredAt (List.getElem?_eq_getElem hyl)] at hexp
      obtain ⟨c1, _, edel, _, _, hwf2, hfr, _, hpre⟩ := hwf1.del_mid
      rw [List.append_nil] at hwf2
      have edelG : c.delG y = some c1 := by
        rw [delG_eq hwf1 (by simp)]; exact edel
      obtain ⟨nd1, hnd1, hnd1p⟩ : ∃ nd1, c1.li.mem[y]? = some nd1 ∧
          nd1.pre = (c.li.head :: (s ++ t)).getLast? := by
        have hyl1 : y < c1.li.mem.length := by rw [hfr.2.2.2.2.2.1]; exact hyl
        refine ⟨_, List.getElem?_eq_getElem hyl1, ?_⟩
        rw [← hpre]; simp [preOf, List.getElem?_eq_getElem hyl1]
      have ih1 := ih c1 k (cleanSum + 1) hwf2
        (fun p hp => by rw [expiredAt_frame hfr.2.2]; exact ht p (by simp [hp]))
        (fun z hz => by rw [expiredAt_frame hfr.2.2]; exact hs z hz)
      have hl : (c.li.head :: (s ++ (t ++ [y]))).getLast? = some y := by
        rw [← List.append_assoc, ← List.cons_append, List.getLast?_concat]
      rw [hl]
      simp only [cleanLoopG, cleanLoop, hy, if_false, List.getElem?_eq_getElem hyl, hexp,
        if_true, edel, edelG, hnd1, hnd1p]
      rw [← hfr.2.2.1]
      exact ih1

/-- No guard fails during a call on a well-formed cache. -/
theorem stepG_eq {c : LRUCache V} {ps : List Nat} (h : Wf c ps) (o : Op V) :
    stepG c o = step c o := by
  cases o with
  | put key data =>
    obtain ⟨l1, e, hwf, _, _, _, _, _, _, _⟩ := h.list.add_node key data
    have hpre := hwf.pre_end
    rw [List.getLast?_cons_cons, List.getLast?_eq_getLast _ (List.cons_ne_nil _ _)] at hpre
    obtain ⟨n, hn, hnpre⟩ := getElem?_of_preOf hpre
    have hlink := linked_of_mem hwf (List.getLast_mem (List.cons_ne_nil c.li.mem.length ps))
    simp only [stepG, step, LRUCache.PutG, LRUCache.Put, e, LRUCache.limitLenG,
      LRUCache.limitLen, Option.bind_eq_bind, Option.some_bind]
    split
    · rfl
    · simp [hn, hnpre, LRUCache.delG, hlink]
  | get now key =>
    simp only [stepG, step, LRUCache.GetG, LRUCache.Get]
    cases hk : mapGet c.dic key with
    | none => rfl
    | some x =>
      have hlink := linked_of_mem h.list (h.key_of_get hk).1
      simp [LRUCache.delG, hlink]
  | del key =>
    simp only [stepG, step, LRUCache.DelG, LRUCache.Del]
    cases hk : mapGet c.dic key with
    | none => rfl
    | some x => simp [LRUCache.delG, linked_of_mem h.list (h.key_of_get hk).1]
  | sweep now =>
    simp only [stepG, step, LRUCache.runCleanG, LRUCache.runClean, LRUCache.cleanTimeoutNode]
    split
    · rfl
    · have hsplit := rdropWhile_append_rtakeWhile (expiredAt c.li.mem now) ps
      have hwf : Wf c (ps.rdropWhile (expiredAt c.li.mem now) ++
          ps.rtakeWhile (expiredAt c.li.mem now)) := by rw [hsplit]; exact h
      have heq := cleanLoopG_eq now _ _ c (c.li.mem.length + 1) 0
        hwf (fun p hp => List.mem_rtakeWhile_imp hp)
        (fun y hy => by
          have hne : ps.rdropWhile (expiredAt c.li.mem now) ≠ [] := by
            intro h0; rw [h0] at hy; simp at hy
          have := List.rdropWhile_last_not (expiredAt c.li.mem now) ps hne
          rw [List.getLast?_eq_getLast _ hne] at hy
          rw [← Option.some.inj hy]
          simpa using this)
      rw [hsplit, ← h.list.pre_end] at heq
      have hl : c.li.end_ < c.li.mem.length := h.list.lt_length _ (by simp)
      have hnp : (c.li.mem[c.li.end_]).pre = preOf c.li.mem c.li.end_ := by
        simp [preOf, List.getElem?_eq_getElem hl]
      simp only [List.getElem?_eq_getElem hl, hnp, heq]

theorem dic_length_le {c : LRUCache V} {ps : List Nat} (h : Wf c ps) :
    c.dic.length ≤ ps.length := by
  have hnd : c.dic.Nodup := List.Nodup.of_map _ h.dic_nodup
  have hsnd : (c.dic.map Prod.snd).Nodup := by
    apply List.Nodup.map_on _ hnd
    intro a ha b hb hab
    have ka := (h.dic_mem a.1 a.2 ha).2
    have kb := (h.dic_mem b.1 b.2 hb).2
    rw [hab, kb] at ka
    exact Prod.ext (Option.some.inj ka).symm hab
  have hsub : c.dic.map Prod.snd ⊆ ps := by
    intro n hn
    obtain ⟨a, ha, rfl⟩ := List.mem_map.mp hn
    exact (h.dic_mem a.1 a.2 ha).1
  have := (List.subperm_of_subset hsnd hsub).length_le
  simpa using this

/-- C20: in every reachable state each index entry `k -> n` points to a node reachable
from the head sentinel whose key is `k`, the index has at most `Len()` entries, and every
call succeeds with every guard passed: `takeNode` and `upToHead` are only applied to
nodes linked between the sentinels. -/
theorem indexed_nodes_are_linked (c : LRUCache V) (hc : Reachable c) :
    (∀ k n, (k, n) ∈ c.dic →
      n ∈ c.li.nodes ∧ ∃ nd, c.li.mem[n]? = some nd ∧ nd.data.key = k) ∧
    (c.dic.length : Int) ≤ c.Len ∧
    ∀ o : Op V, ∃ c1, step c o = some c1 ∧ stepG c o = some c1 := by
  obtain ⟨⟨ps, h⟩, _⟩ := reachable_wf hc
  refine ⟨fun k n hm => ?_, ?_, fun o => ?_⟩
  · obtain ⟨h1, h2⟩ := h.dic_mem k n hm
    refine ⟨by rw [h.list.nodes_eq]; exact h1, ?_⟩
    obtain ⟨nd, hnd, hi⟩ := infoOf_some (h.list.lt_length n (by simp [h1]))
    refine ⟨nd, hnd, ?_⟩
    simpa [keyOf, hi] using h2
  · have := dic_length_le h
    simp only [LRUCache.Len, h.list.len]
    exact_mod_cast this
  · obtain ⟨c1, _, e, _⟩ := wf_step h o
    exact ⟨c1, e, by rw [stepG_eq h o]; exact e⟩

theorem indexed_nodes_are_linked_witness :
    Reachable sampleCache ∧
    ((∀ k n, (k, n) ∈ sampleCache.dic →
      n ∈ sampleCache.li.nodes ∧ ∃ nd, sampleCache.li.mem[n]? = some nd ∧ nd.data.key = k) ∧
    (sampleCache.dic.length : Int) ≤ sampleCache.Len ∧
    ∀ o : Op String, ∃ c1, step sampleCache o = some c1 ∧ stepG sampleCache o = some c1) :=
  ⟨sampleCache_reachable, indexed_nodes_are_linked sampleCache sampleCache_reachable⟩

/-! ## Recency and sweep on states without stale duplicates -/

end Cache
